import Mathlib

/-!
Verification development for the WhisperLayer voice-dictation daemon.

The definitions below are a shallow embedding of the Python sources:
  - src/whisperlayer/app.py        (session controller, transcription loop)
  - src/whisperlayer/commands.py   (voice command engine)
  - src/whisperlayer/transcriber.py (transcriber error handling)
  - src/whisperlayer/settings_ui.py (custom-command add dialog)
  - src/voicetype/settings.py      (settings persistence)

Text is modelled as List Char (Python strings index by code point, which
matches Char lists for the inputs considered here).  Machine floats from
the sources are modelled as rationals.
-/

namespace WL

/-! ## Python string primitives -/

/-- Python whitespace class used by str.strip and regex \s. -/
def isPyWS (c : Char) : Bool :=
  c == ' ' || c == '\t' || c == '\n' || c == '\r' || c == '\x0b' || c == '\x0c'

/-- Characters collapsed by the final cleanup regex [ \t]+ in scan_text. -/
def isSpTab (c : Char) : Bool := c == ' ' || c == '\t'

/-- Punctuation accepted by the token separator regex [.,!?]. -/
def isPunctC (c : Char) : Bool := c == '.' || c == ',' || c == '!' || c == '?'

/-- The [a-zA-Z0-9] class used by the instant-command boundary lookahead. -/
def isAlnumC (c : Char) : Bool :=
  ('a' ≤ c && c ≤ 'z') || ('A' ≤ c && c ≤ 'Z') || ('0' ≤ c && c ≤ '9')

/-- Python str.lower for the ASCII inputs considered here. -/
def lowerL (l : List Char) : List Char := l.map Char.toLower

/-- Python str.strip() with no arguments: drop whitespace from both ends. -/
def pyStrip (l : List Char) : List Char :=
  ((l.dropWhile isPyWS).reverse.dropWhile isPyWS).reverse

/-- One pass of re.sub(r"[ \t]+", " ", s): the Bool records whether we are
inside a space/tab run that already emitted its single space. -/
def collapseGo : Bool → List Char → List Char
  | _, [] => []
  | inRun, c :: rest =>
    if isSpTab c then
      if inRun then collapseGo true rest else ' ' :: collapseGo true rest
    else c :: collapseGo false rest

/-- re.sub(r"[ \t]+", " ", s). -/
def collapseST (l : List Char) : List Char := collapseGo false l

/-- The final cleaning pass of scan_text: collapse space/tab runs, then strip. -/
def cleanupL (l : List Char) : List Char := pyStrip (collapseST l)

/-- Python int() on a rational: truncation toward zero. -/
def pyInt (q : ℚ) : ℤ := if 0 ≤ q then ⌊q⌋ else ⌈q⌉

/-! ## Session controller: the transcription-loop tick (app.py 459-507) -/

/-- A transcription segment as returned by the transcriber: a dict with
start, end and text keys.  The end key is named endT because end is a
keyword. -/
structure Seg where
  start : ℚ
  endT : ℚ
  text : List Char
deriving DecidableEq

/-- The per-session state touched by one tick of _transcription_loop:
the rolling buffer (list of samples), _confirmed_text and _pending_text. -/
structure TState (α : Type) where
  buffer : List α
  confirmed : List Char
  pending : List Char
deriving DecidableEq

/-- config.SAMPLE_RATE. -/
def SAMPLE_RATE : ℕ := 16000

/-- The for-loop of the safe sliding window (app.py 469-476): walk segments
in order, accumulate seg.text + " " while seg end < cutoff, stop at the
first segment at or past the cutoff.  Returns (committed_text_chunk,
safe_point, keep_idx). -/
def commitLoop (cutoff : ℚ) : List Seg → List Char → ℚ → ℕ → List Char × ℚ × ℕ
  | [], acc, sp, k => (acc, sp, k)
  | sg :: rest, acc, sp, k =>
    if sg.endT < cutoff then
      commitLoop cutoff rest (acc ++ sg.text ++ [' ']) sg.endT (k + 1)
    else (acc, sp, k)

/-- One processing step of the transcription loop after transcribe returned
(app.py 450-507): update pending, and when the buffer exceeds 20 s commit
the safe prefix, slice the buffer and rebuild pending from the remaining
segments. -/
def tick {α : Type} (st : TState α) (resText : List Char) (segs : List Seg) :
    TState α :=
  if resText = [] then st
  else
    let pending1 := pyStrip resText
    let dur : ℚ := (st.buffer.length : ℚ) / (SAMPLE_RATE : ℚ)
    if dur > 20 ∧ segs ≠ [] then
      let cutoff := dur - 5
      let res := commitLoop cutoff segs [] 0 0
      let chunk := res.1
      let sp := res.2.1
      let k := res.2.2
      if sp > 0 then
        { buffer := st.buffer.drop (pyInt (sp * (SAMPLE_RATE : ℚ))).toNat
          confirmed := pyStrip (st.confirmed ++ (' ' :: chunk))
          pending := pyStrip (List.flatten ((segs.drop k).map Seg.text)) }
      else { st with pending := pending1 }
    else { st with pending := pending1 }

/-- The state at session start (_start_recording clears both strings). -/
def initTState (α : Type) (buf : List α) : TState α :=
  { buffer := buf, confirmed := [], pending := [] }

/-- A whole sequence of tick inputs applied in order. -/
def applyTicks {α : Type} (st : TState α) :
    List (List Char × List Seg) → TState α
  | [] => st
  | (t, segs) :: rest => applyTicks (tick st t segs) rest

/-! ## Command engine: data model (commands.py 21-40, 201-256) -/

/-- The substitution_handler field: either absent or the clipboard reader
_get_clipboard_content (only the paste command carries one). -/
inductive SubH
  | noSub
  | clipSub
deriving DecidableEq

/-- The content_substitution_handler field: absent, _ollama_get_response
(delta) or _raw_text_passthrough (raw text). -/
inductive CSubH
  | noCSub
  | aiCSub
  | rawCSub
deriving DecidableEq

/-- CommandDefinition restricted to the fields scan_text reads.  Handlers
are represented as data and interpreted against an Env. -/
structure Cmd where
  trigger : String
  requiresContent : Bool
  requiresEnd : Bool
  subH : SubH
  csubH : CSubH
  scanContent : Bool
  category : String
deriving DecidableEq

/-- CommandMatch: the record appended to the matches list. -/
structure CmdMatch where
  command : Cmd
  content : String
  fullMatch : String
deriving DecidableEq

/-- External collaborators reached from scan_text: the clipboard contents
returned by _get_clipboard_content and the sanitized-response function
_ollama_get_response standing for the AI service plus its sanitizer. -/
structure Env where
  clip : String
  ai : String → String

/-- Helper to build a builtin command definition. -/
def mkCmd (t : String) (rc re : Bool) (s : SubH) (cs : CSubH) (sc : Bool) :
    Cmd :=
  { trigger := t, requiresContent := rc, requiresEnd := re, subH := s,
    csubH := cs, scanContent := sc, category := "general" }

/-- The builtin commands in registration order
(_register_default_commands, commands.py 201-256). -/
def defaultCmds : List Cmd :=
  [ mkCmd "copy" false false SubH.noSub CSubH.noCSub true
  , mkCmd "paste" false false SubH.clipSub CSubH.noCSub true
  , mkCmd "cut" false false SubH.noSub CSubH.noCSub true
  , mkCmd "undo" false false SubH.noSub CSubH.noCSub true
  , mkCmd "redo" false false SubH.noSub CSubH.noCSub true
  , mkCmd "select all" false false SubH.noSub CSubH.noCSub true
  , mkCmd "backspace" false false SubH.noSub CSubH.noCSub true
  , mkCmd "delete" false false SubH.noSub CSubH.noCSub true
  , mkCmd "new line" false false SubH.noSub CSubH.noCSub true
  , mkCmd "enter" false false SubH.noSub CSubH.noCSub true
  , mkCmd "super" false false SubH.noSub CSubH.noCSub true
  , mkCmd "command prompt" false false SubH.noSub CSubH.noCSub true
  , mkCmd "lock" false false SubH.noSub CSubH.noCSub true
  , mkCmd "tab" false false SubH.noSub CSubH.noCSub true
  , mkCmd "new tab" false false SubH.noSub CSubH.noCSub true
  , mkCmd "new window" false false SubH.noSub CSubH.noCSub true
  , mkCmd "press tab" false false SubH.noSub CSubH.noCSub true
  , mkCmd "search" true true SubH.noSub CSubH.noCSub true
  , mkCmd "google" true true SubH.noSub CSubH.noCSub true
  , mkCmd "delta" true true SubH.noSub CSubH.aiCSub true
  , mkCmd "wait" true true SubH.noSub CSubH.noCSub true
  , mkCmd "raw text" true true SubH.noSub CSubH.rawCSub false
  ]

/-- Stable insertion of a command into a list sorted by descending trigger
length: the command goes before the first entry that is not strictly
longer, matching the stability of Python sorted with reverse=True. -/
def insertByLen (c : Cmd) : List Cmd → List Cmd
  | [] => [c]
  | d :: rest =>
    if c.trigger.length < d.trigger.length then d :: insertByLen c rest
    else c :: d :: rest

/-- sorted(commands, key=len of trigger, reverse=True), stable. -/
def sortByLenDesc : List Cmd → List Cmd
  | [] => []
  | c :: rest => insertByLen c (sortByLenDesc rest)

/-- The alternation order used by the combined regex when the registry is
built from default settings (no custom commands, no overrides). -/
def scanCmds : List Cmd := sortByLenDesc defaultCmds

/-! ## Command engine: the combined regex (commands.py 323-359)

Each regex fragment is modelled as a function from a suffix of the text to
the list of suffixes it can leave behind, ordered by backtracking
preference (greedy pieces longest first, the non-greedy content shortest
first).  Sequencing is flatMap, so the first element of the final list is
the match the Python backtracking engine commits to. -/

/-- Length of the longest prefix satisfying p. -/
def countWhile (p : Char → Bool) : List Char → ℕ
  | [] => 0
  | c :: rest => if p c then countWhile p rest + 1 else 0

/-- Suffixes l.drop hi, l.drop (hi-1), ..., l.drop lo in that order. -/
def sufsDesc (l : List Char) (hi lo : ℕ) : List (List Char) :=
  (List.range (hi + 1 - lo)).map (fun i => l.drop (hi - i))

/-- Case-insensitive literal match (the pattern literals are lowercase and
the subject is matched with IGNORECASE): returns the rest on success. -/
def matchLit : List Char → List Char → Option (List Char)
  | [], l => some l
  | _ :: _, [] => none
  | w :: ws, c :: cs => if c.toLower = w then matchLit ws cs else none

/-- Candidate list of a literal: at most one. -/
def litC (w : List Char) (l : List Char) : List (List Char) :=
  (matchLit w l).toList

/-- The separator regex SEP = (?:[.,!?]+\s*|\s+). -/
def sepCands (l : List Char) : List (List Char) :=
  let p := countWhile isPunctC l
  let b1 :=
    (List.range p).flatMap (fun i =>
      let k := p - i
      let after := l.drop k
      sufsDesc after (countWhile isPyWS after) 0)
  let w := countWhile isPyWS l
  b1 ++ sufsDesc l w 1

/-- TRIGGER_VARIATIONS in the order of the source literal. -/
def trigWords : List (List Char) :=
  [String.data "okay", String.data "ok", String.data "o.k.", String.data "o.k"]

/-- The trigger alternation (?:okay|ok|o\.k\.|o\.k). -/
def trigCands (l : List Char) : List (List Char) :=
  trigWords.flatMap (fun w => litC w l)

/-- FILLER_WORDS in the order of the source literal. -/
def fillerWords : List (List Char) :=
  [String.data "and", String.data "the", String.data "a", String.data "to",
   String.data "uh", String.data "um", String.data "so",
   String.data "please", String.data "now"]

/-- The filler regex (?:and|...|now)?\s* : optional word (group present
first), then greedy \s*. -/
def fillerCands (l : List Char) : List (List Char) :=
  let present := fillerWords.flatMap (fun w =>
    (matchLit w l).toList.flatMap (fun r =>
      sufsDesc r (countWhile isPyWS r) 0))
  present ++ sufsDesc l (countWhile isPyWS l) 0

/-- END_WORDS in the order of the source literal. -/
def endWords : List (List Char) :=
  [String.data "done", String.data "finished", String.data "complete",
   String.data "over", String.data "stop", String.data "end",
   String.data "execute", String.data "finish"]

/-- The end-word alternation. -/
def endCands (l : List Char) : List (List Char) :=
  endWords.flatMap (fun w => litC w l)

/-- Sequencing of regex fragments: flatMap in order, preserving
backtracking preference. -/
def chainCands (fs : List (List Char → List (List Char))) (l : List Char) :
    List (List Char) :=
  fs.foldl (fun acc f => acc.flatMap f) [l]

/-- Python trigger.split(): split on whitespace runs, dropping empties. -/
def splitWSGo : List Char → List Char → List (List Char)
  | [], acc => if acc = [] then [] else [acc.reverse]
  | c :: rest, acc =>
    if isPyWS c then
      if acc = [] then splitWSGo rest []
      else acc.reverse :: splitWSGo rest []
    else splitWSGo rest (c :: acc)

/-- Words of a (possibly multi-word) trigger. -/
def splitWS (l : List Char) : List (List Char) := splitWSGo l []

/-- The SEP-joined action pattern for a trigger, as a fragment list. -/
def actionElems (ws : List (List Char)) :
    List (List Char → List (List Char)) :=
  match ws with
  | [] => []
  | w :: rest => litC w :: rest.flatMap (fun w2 => [sepCands, litC w2])

/-- base_pat = TRIGGER SEP FILLER ACTION. -/
def prefixCands (cmd : Cmd) (l : List Char) : List (List Char) :=
  chainCands ([trigCands, sepCands, fillerCands] ++
    actionElems (splitWS cmd.trigger.data)) l

/-- The closing part of a block command: SEP TRIGGER SEP FILLER END. -/
def closeCands (l : List Char) : List (List Char) :=
  chainCands [sepCands, trigCands, sepCands, fillerCands, endCands] l

/-- Boundary lookahead (?![a-zA-Z0-9]) after an instant command. -/
def boundaryOk : List Char → Bool
  | [] => true
  | c :: _ => !isAlnumC c

/-- Match of an instant command pattern at the start of l: the first
prefix-candidate whose boundary check passes. -/
def instM (cmd : Cmd) (l : List Char) : Option (List Char) :=
  (prefixCands cmd l).find? boundaryOk

/-- Ascending search g start, g (start+1), ... for the given number of
steps, returning the first success: the non-greedy enumeration order of
the CONTENT group. -/
def firstSome {β : Type} (g : ℕ → Option β) : ℕ → ℕ → Option β
  | _, 0 => none
  | start, fuel + 1 =>
    match g start with
    | some v => some v
    | none => firstSome g (start + 1) fuel

/-- After one separator alternative, search for the shortest newline-free
CONTENT followed by a close: the (?:SEP CONTENT)? group with the group
present. -/
def contentAt (s1 : List Char) : Option (Option (List Char) × List Char) :=
  let limit := countWhile (fun c => c ≠ '\n') s1
  firstSome (fun n =>
    (closeCands (s1.drop n)).head?.map (fun r => (some (s1.take n), r)))
    0 (limit + 1)

/-- One prefix candidate of a block command: try the optional content group
(present first), falling back to the immediate close. -/
def tryPrefix (p : List Char) : Option (Option (List Char) × List Char) :=
  match (sepCands p).findSome? contentAt with
  | some x => some x
  | none => (closeCands p).head?.map (fun r => ((none : Option (List Char)), r))

/-- Match of a block command pattern at the start of l: after the prefix,
the optional (?:SEP CONTENT)? with non-greedy newline-free CONTENT, then
SEP TRIGGER SEP FILLER END.  Returns the content candidate (none when the
optional group is skipped) and the rest. -/
def bracketedM (cmd : Cmd) (l : List Char) :
    Option (Option (List Char) × List Char) :=
  (prefixCands cmd l).findSome? tryPrefix

/-- One match found by the combined regex: the command, the span in the
scanned text, the original-case characters of the full span, and the
original-case characters of the CONTENT group when it participated. -/
structure Found where
  cmd : Cmd
  startP : ℕ
  endP : ℕ
  full : List Char
  contentQ : Option (List Char)
deriving DecidableEq

/-- Try one alternative of the combined regex at the given position. -/
def tryCmd (cmd : Cmd) (l : List Char) (pos : ℕ) : Option Found :=
  if cmd.requiresEnd then
    match bracketedM cmd l with
    | some (copt, r) =>
      let consumed := l.length - r.length
      some { cmd := cmd, startP := pos, endP := pos + consumed,
             full := l.take consumed, contentQ := copt }
    | none => none
  else
    match instM cmd l with
    | some r =>
      let consumed := l.length - r.length
      some { cmd := cmd, startP := pos, endP := pos + consumed,
             full := l.take consumed, contentQ := none }
    | none => none

/-- Try every alternative of the combined regex at one position, in the
longest-trigger-first order of the alternation; pos is the absolute offset
of the suffix l in the scanned text. -/
def matchHere (cmds : List Cmd) (l : List Char) (pos : ℕ) : Option Found :=
  cmds.findSome? (fun cmd => tryCmd cmd l pos)

/-- Scan left to right for the first position with a match; returns the
match together with the suffix that follows it. -/
def findFrom (cmds : List Cmd) : List Char → ℕ → Option (Found × List Char)
  | [], pos =>
    (matchHere cmds [] pos).map (fun f => (f, ([] : List Char)))
  | c :: tl, pos =>
    match matchHere cmds (c :: tl) pos with
    | some f => some (f, (c :: tl).drop (f.endP - pos))
    | none => findFrom cmds tl (pos + 1)

/-- re.finditer: enumerate non-overlapping matches left to right.  Each
iteration consumes at least one character, so fuel = length + 1 always
suffices. -/
def findAll (cmds : List Cmd) : ℕ → List Char → ℕ → List Found
  | 0, _, _ => []
  | n + 1, l, pos =>
    match findFrom cmds l pos with
    | none => []
    | some (f, rest) => f :: findAll cmds n rest f.endP

/-! ## Command engine: scan_text (commands.py 303-456) -/

/-- Result of one scan_text call: the cleaned text, the matches list, the
_executed_hashes set after the call (modelled as the list of lowercased
full-match substrings), and the arguments of the AI-service calls made
while scanning (for observing what delta sends to Ollama). -/
structure ScanRes where
  cleaned : List Char
  ms : List CmdMatch
  seen : List (List Char)
  aiCalls : List String
deriving DecidableEq

/-- A replacement span (start, end, replacement). -/
abbrev Span := ℕ × ℕ × List Char

/-- Stable insertion for replacement_spans.sort(key=start, reverse=True). -/
def insertSpanDesc (s : Span) : List Span → List Span
  | [] => [s]
  | d :: rest =>
    if d.1 ≥ s.1 then d :: insertSpanDesc s rest
    else s :: d :: rest

/-- replacement_spans sorted by start offset, descending, stable. -/
def sortSpansDesc : List Span → List Span
  | [] => []
  | s :: rest => insertSpanDesc s (sortSpansDesc rest)

/-- Apply the sorted spans one after another:
cleaned = cleaned[:start] + repl + cleaned[end:]. -/
def applySpans : List Span → List Char → List Char
  | [], l => l
  | (s, e, r) :: rest, l => applySpans rest (l.take s ++ (r ++ l.drop e))

/-- State accumulated by the per-match loop of scan_text. -/
structure ProcRes where
  spans : List Span
  ms : List CmdMatch
  seen : List (List Char)
  aiCalls : List String

/-- The body of the finditer loop of scan_text, processing the found
matches in order.  rec is the recursive scan used on nested content
(scan_text with is_nested=True); it receives the dedup state, returning a
full ScanRes. -/
def procAll (rec : List (List Char) → List Char → ScanRes) (env : Env)
    (nested : Bool) : List Found → List (List Char) → ProcRes
  | [], seen => { spans := [], ms := [], seen := seen, aiCalls := [] }
  | f :: rest, seen =>
    let key := lowerL f.full
    if key ∈ seen then
      procAll rec env nested rest seen
    else
      let seen1 := seen ++ [key]
      if nested ∧ f.cmd.subH = SubH.clipSub then
        let r := procAll rec env nested rest seen1
        { r with spans := (f.startP, f.endP, env.clip.data) :: r.spans }
      else
        let contentLow := pyStrip (lowerL (f.contentQ.getD []))
        let contentOrig :=
          if f.cmd.requiresContent ∧ contentLow ≠ [] then f.contentQ.getD []
          else []
        if f.cmd.csubH ≠ CSubH.noCSub then
          let sub : ScanRes :=
            if contentOrig ≠ [] ∧ f.cmd.scanContent then
              let q := rec seen1 contentOrig
              { cleaned := pyStrip q.cleaned, ms := q.ms, seen := q.seen,
                aiCalls := q.aiCalls }
            else
              { cleaned := contentOrig, ms := [], seen := seen1,
                aiCalls := [] }
          let subst :=
            match f.cmd.csubH with
            | CSubH.rawCSub => pyStrip sub.cleaned
            | CSubH.aiCSub => (env.ai (String.mk sub.cleaned)).data
            | CSubH.noCSub => []
          let calls :=
            match f.cmd.csubH with
            | CSubH.aiCSub => [String.mk sub.cleaned]
            | _ => []
          let r := procAll rec env nested rest sub.seen
          { spans := (f.startP, f.endP, subst) :: r.spans,
            ms := sub.ms ++ r.ms, seen := r.seen,
            aiCalls := sub.aiCalls ++ calls ++ r.aiCalls }
        else
          let sub : ScanRes :=
            if contentOrig ≠ [] then rec seen1 contentOrig
            else { cleaned := contentOrig, ms := [], seen := seen1,
                   aiCalls := [] }
          let changed := sub.ms ≠ [] ∨ sub.cleaned ≠ contentOrig
          let outer : CmdMatch :=
            { command := f.cmd,
              content :=
                if contentOrig ≠ [] ∧ changed then String.mk (pyStrip sub.cleaned)
                else String.mk contentOrig,
              fullMatch := String.mk f.full }
          let subMs := if contentOrig ≠ [] ∧ changed then sub.ms else []
          let r := procAll rec env nested rest sub.seen
          { spans := (f.startP, f.endP, []) :: r.spans,
            ms := outer :: (subMs ++ r.ms), seen := r.seen,
            aiCalls := sub.aiCalls ++ r.aiCalls }

/-- scan_text over a character list, with explicit recursion fuel for the
nested content scans (content is always strictly shorter than its text, so
length-based fuel suffices). -/
def scanL (env : Env) : ℕ → List (List Char) → List Char → Bool → ScanRes
  | 0, seen, t, _ => { cleaned := t, ms := [], seen := seen, aiCalls := [] }
  | n + 1, seen, t, nested =>
    if t = [] then { cleaned := t, ms := [], seen := seen, aiCalls := [] }
    else
      let fs := findAll scanCmds (t.length + 1) t 0
      let r := procAll (fun s c => scanL env n s c true) env nested fs seen
      { cleaned := cleanupL (applySpans (sortSpansDesc r.spans) t),
        ms := r.ms, seen := r.seen, aiCalls := r.aiCalls }

/-- scan_text(text, is_nested=False) with the engine dedup state passed in
and out explicitly. -/
def scanText (env : Env) (seen : List (List Char)) (s : String) : ScanRes :=
  scanL env (s.data.length + 1) seen s.data false

/-- A session: reset() clears the dedup set, then the given transcripts are
scanned one after another with the state threaded through.  Returns all
emitted matches in order and the final dedup state. -/
def scanSession (env : Env) : List String → List (List Char) →
    List CmdMatch × List (List Char)
  | [], seen => ([], seen)
  | s :: rest, seen =>
    let r := scanText env seen s
    let q := scanSession env rest r.seen
    (r.ms ++ q.1, q.2)

/-! ## Auxiliary predicates used by the theorem statements -/

/-- Does w occur (case-insensitively) as a substring of l?  Decidable by
construction. -/
def occursB (w l : List Char) : Bool :=
  (List.range (l.length + 1)).any (fun i => w.isPrefixOf (lowerL (l.drop i)))

/-- A list is in stripped form: no whitespace at either end.  This is the
invariant _confirmed_text keeps between ticks. -/
def StrippedOK (l : List Char) : Prop :=
  l.dropWhile isPyWS = l ∧ l.reverse.dropWhile isPyWS = l.reverse

/-- No tab characters and no two adjacent space/tab characters: the shape
of the output of the space-collapsing regex. -/
def NoRuns (l : List Char) : Prop :=
  ('\t' ∉ l) ∧ l.Chain' (fun c d => ¬(isSpTab c = true ∧ isSpTab d = true))

/-- The dedup key of an emitted match: the lowercased full-match substring
whose hash goes into _executed_hashes. -/
def mkey (m : CmdMatch) : List Char := lowerL m.fullMatch.data

/-- The dedup invariant tying a scan step to its dedup state: the state
only grows, every emitted match has a key that was not seen before the
step and is recorded after it, and the emitted keys are pairwise
distinct. -/
def ScanInv (seenIn : List (List Char)) (ms : List CmdMatch)
    (seenOut : List (List Char)) : Prop :=
  (∃ ext, seenOut = seenIn ++ ext) ∧
  (∀ m ∈ ms, mkey m ∉ seenIn) ∧
  (∀ m ∈ ms, mkey m ∈ seenOut) ∧
  (ms.map mkey).Nodup

/-! ## Registry construction (commands.py 71-111, 259-295) -/

/-- One entry of the custom_commands settings list. -/
structure CustomCmd where
  trigger : String
  value : String
  requiresEnd : Bool
  enabled : Bool
deriving DecidableEq

/-- The slice of the settings document the registry build reads. -/
structure AppSettings where
  disabledCommands : List String
  builtinOverrides : List (String × String)
  customCommands : List CustomCmd
deriving DecidableEq

/-- Settings defaults: disabled_commands [], builtin_overrides {},
custom_commands []. -/
def defaultSettings : AppSettings :=
  { disabledCommands := [], builtinOverrides := [], customCommands := [] }

/-- Python s.lower() on a string. -/
def lowerS (s : String) : String := String.mk (lowerL s.data)

/-- Python s.strip() on a string. -/
def stripS (s : String) : String := String.mk (pyStrip s.data)

/-- Assignment into a Python dict modelled as an association list: an
existing key keeps its position and gets the new value, a new key is
appended. -/
def dictSet (k : String) (v : Cmd) : List (String × Cmd) →
    List (String × Cmd)
  | [] => [(k, v)]
  | (k2, v2) :: rest =>
    if k2 = k then (k2, v) :: rest else (k2, v2) :: dictSet k v rest

/-- Python dict lookup. -/
def dictGet (k : String) : List (String × Cmd) → Option Cmd
  | [] => none
  | (k2, v) :: rest => if k2 = k then some v else dictGet k rest

/-- Lookup in the builtin_overrides mapping. -/
def ovGet (k : String) : List (String × String) → Option String
  | [] => none
  | (k2, v) :: rest => if k2 = k then some v else ovGet k rest

/-- VoiceCommandDetector.register (commands.py 259-295): normalize the
trigger, skip disabled builtins, apply overrides (an empty override
disables), then assign into the commands dict, replacing any previous
entry under the same effective trigger. -/
def registerC (s : AppSettings) (reg : List (String × Cmd)) (trigger : String)
    (rc re : Bool) (sub : SubH) (csub : CSubH) (cat : String) (sc : Bool) :
    List (String × Cmd) :=
  let base := stripS (lowerS trigger)
  if cat ≠ "custom" ∧ base ∈ s.disabledCommands.map lowerS then reg
  else
    match (if cat ≠ "custom" then ovGet base s.builtinOverrides else none) with
    | some ov =>
      let eff := stripS (lowerS ov)
      if eff = "" then reg
      else dictSet eff
        { trigger := eff, requiresContent := rc, requiresEnd := re,
          subH := sub, csubH := csub, scanContent := sc, category := cat } reg
    | none =>
      dictSet base
        { trigger := base, requiresContent := rc, requiresEnd := re,
          subH := sub, csubH := csub, scanContent := sc, category := cat } reg

/-- The builtin registration calls of _register_default_commands, as data:
trigger, requires_content, requires_end, handlers, scan_content. -/
def builtinSpec (c : Cmd) : AppSettings → List (String × Cmd) →
    List (String × Cmd) :=
  fun s reg => registerC s reg c.trigger c.requiresContent c.requiresEnd
    c.subH c.csubH "general" c.scanContent

/-- _register_default_commands under the given settings. -/
def registerDefaults (s : AppSettings) : List (String × Cmd) :=
  defaultCmds.foldl (fun reg c => builtinSpec c s reg) []

/-- _load_custom_commands (commands.py 77-111): enabled entries are
registered with requires_content = requires_end and category custom. -/
def loadCustom (s : AppSettings) (reg : List (String × Cmd)) :
    List (String × Cmd) :=
  s.customCommands.foldl
    (fun r c =>
      if c.enabled then
        registerC s r c.trigger c.requiresEnd c.requiresEnd SubH.noSub
          CSubH.noCSub "custom" true
      else r)
    reg

/-- reload_commands: clear, defaults, then customs. -/
def buildRegistry (s : AppSettings) : List (String × Cmd) :=
  loadCustom s (registerDefaults s)

/-- The add-custom-command handler of the settings GUI
(settings_ui.py 843-880): empty trigger or value is ignored; a trigger
equal to an existing custom command raises the Duplicate Trigger dialog
and leaves the list unchanged; otherwise the entry is appended. -/
def addCustomCommand (customs : List CustomCmd) (trigger value : String)
    (reqEnd : Bool) : List CustomCmd :=
  let t := lowerS (stripS trigger)
  let v := stripS value
  if t = "" ∨ v = "" then customs
  else if customs.any (fun c => c.trigger = t) then customs
  else customs ++ [{ trigger := t, value := v, requiresEnd := reqEnd,
                     enabled := true }]

/-! ## Settings persistence (voicetype/settings.py 296-304) -/

/-- Events applied to the persisted settings file by a save: opening with
mode w truncates, then json.dump streams the serialized document. -/
inductive WStep
  | truncate
  | writeChar (c : Char)
deriving DecidableEq

/-- The step sequence of Settings.save: a single direct
open(config_path, "w") followed by the serialized document. -/
def directSaveSteps (doc : List Char) : List WStep :=
  WStep.truncate :: doc.map WStep.writeChar

/-- File contents after a sequence of write events. -/
def runW : List WStep → List Char → List Char
  | [], file => file
  | WStep.truncate :: rest, _ => runW rest []
  | WStep.writeChar c :: rest, file => runW rest (file ++ [c])

/-- File contents when the save is interrupted after k events. -/
def fileAfter (doc : List Char) (old : List Char) (k : ℕ) : List Char :=
  runW ((directSaveSteps doc).take k) old

/-! ## Transcriber.transcribe error handling (transcriber.py 153-224) -/

/-- The fields of the whisper decode result that transcribe reads. -/
structure DecodeOut where
  text : String
  language : String
  segments : List Seg
deriving DecidableEq

/-- TranscriptionResult restricted to the fields transcribe fills. -/
structure TResult where
  text : String
  isPartial : Bool
  language : String
  segments : List Seg
deriving DecidableEq

/-- The curated hallucination list (transcriber.py 204-208). -/
def hallucinationPhrases : List String :=
  ["ready?", "thank you", "thanks for watching", "subscribe",
   "like and subscribe", "see you", "bye", "goodbye",
   "music", "applause", "laughter", "..."]

/-- Python str.strip(".,!?"). -/
def stripPunct (l : List Char) : List Char :=
  ((l.dropWhile isPunctC).reverse.dropWhile isPunctC).reverse

/-- np.max(np.abs(audio)): none models the ValueError numpy raises on a
zero-size array. -/
def maxAbs : List ℚ → Option ℚ
  | [] => none
  | x :: rest =>
    match maxAbs rest with
    | none => some |x|
    | some m => some (max |x| m)

/-- The empty TranscriptionResult(text="", is_partial=False). -/
def emptyTResult : TResult :=
  { text := "", isPartial := false, language := "en", segments := [] }

/-- Transcriber.transcribe as a function of its inputs and of the outcomes
of its two effectful steps: loadRes is the outcome of load_model() (which
is not wrapped in try/except), decodeRes the outcome of model.transcribe
(which is).  Errors are propagated exceptions. -/
def transcribeM (isLoaded : Bool) (loadRes : Except String Unit)
    (modelIsNone : Bool) (audio : List ℚ)
    (decodeRes : Except String DecodeOut) : Except String TResult :=
  match (if isLoaded then Except.ok () else loadRes) with
  | Except.error e => Except.error e
  | Except.ok () =>
    if modelIsNone then Except.ok emptyTResult
    else
      match maxAbs audio with
      | none => Except.error "zero-size array to reduction operation maximum"
      | some mx =>
        if mx > 1 then
          runDecode decodeRes
        else if mx < 1 / 50 then Except.ok emptyTResult
        else runDecode decodeRes
where
  /-- The try block around model.transcribe: any exception becomes an
  empty result; the hallucination filter also empties short or listed
  texts. -/
  runDecode : Except String DecodeOut → Except String TResult
  | Except.error _ => Except.ok emptyTResult
  | Except.ok d =>
    let text := stripS d.text
    let tLow := String.mk (stripPunct (lowerL text.data))
    if tLow ∈ hallucinationPhrases ∨ tLow.length < 3 then
      Except.ok emptyTResult
    else
      Except.ok { text := text, isPartial := false, language := d.language,
                  segments := d.segments }

/-! # Theorems -/

/-! ## C9: settings persistence -/

theorem runW_map (doc : List Char) (file : List Char) :
    runW (doc.map WStep.writeChar) file = file ++ doc := by
  induction doc generalizing file with
  | nil => simp [runW]
  | cons c rest ih => simp [runW, ih]

/-- C9 counterexample: save() is a direct truncate-and-write, so a save of
NEWDOC over OLD interrupted right after the truncation leaves an empty
file, which is neither the old nor the new document. -/
theorem c9_save_not_atomic :
    fileAfter "NEWDOC".data "OLD".data 1 ≠ "OLD".data ∧
    fileAfter "NEWDOC".data "OLD".data 1 ≠ "NEWDOC".data := by decide

/-- C9 amended: save() truncates settings.json and streams the new
serialization in place, with no temporary file and no rename.  A completed
save persists the new document, and an interrupted save leaves either the
untouched old document (nothing happened yet) or some prefix of the new
document, possibly empty or partial. -/
theorem c9_save_direct_write (old doc : List Char) :
    runW (directSaveSteps doc) old = doc ∧
    ∀ k, fileAfter doc old k = old ∨ fileAfter doc old k = doc.take (k - 1) := by
  constructor
  · show runW (WStep.truncate :: doc.map WStep.writeChar) old = doc
    simp only [runW]
    simpa using runW_map doc []
  · intro k
    cases k with
    | zero => left; rfl
    | succ j =>
      right
      show runW ((WStep.truncate :: doc.map WStep.writeChar).take (j + 1)) old
        = doc.take (j + 1 - 1)
      simp only [List.take_succ_cons, runW]
      rw [← List.map_take]
      simpa using runW_map (doc.take j) []

/-! ## C10: transcribe error handling -/

theorem runDecode_ok (d : Except String DecodeOut) :
    ∃ r, transcribeM.runDecode d = Except.ok r := by
  cases d with
  | error e => exact ⟨emptyTResult, rfl⟩
  | ok v =>
    simp only [transcribeM.runDecode]
    split
    · exact ⟨emptyTResult, rfl⟩
    · exact ⟨_, rfl⟩

/-- C10 counterexample: transcribe propagates an exception on an empty
audio array, because np.max runs on the zero-size array before the
try/except block, even with the model loaded and a decode result
available. -/
theorem c10_transcribe_raises_on_empty :
    transcribeM true (Except.ok ()) false []
        (Except.ok { text := "hello there", language := "en", segments := [] })
      = Except.error "zero-size array to reduction operation maximum" := rfl

/-- C10 amended: for every non-empty audio input, provided the model is
already loaded or load_model succeeds, transcribe returns a
TranscriptionResult and never propagates an exception: a missing model
object, quiet input, a filtered hallucination, and any decoding error all
produce a result with empty text rather than raising.  The unguarded
cases are an empty input array (np.max raises before the try block) and a
failing model load (load_model is called outside any try). -/
theorem c10_transcribe_total (isLoaded : Bool) (loadRes : Except String Unit)
    (modelIsNone : Bool) (audio : List ℚ)
    (decodeRes : Except String DecodeOut)
    (hload : isLoaded = true ∨ loadRes = Except.ok ())
    (haudio : audio ≠ []) :
    ∃ r, transcribeM isLoaded loadRes modelIsNone audio decodeRes
      = Except.ok r := by
  obtain ⟨mx, hmx⟩ : ∃ mx, maxAbs audio = some mx := by
    cases audio with
    | nil => exact absurd rfl haudio
    | cons x rest =>
      simp only [maxAbs]
      cases maxAbs rest with
      | none => exact ⟨_, rfl⟩
      | some m => exact ⟨_, rfl⟩
  have hok : (if isLoaded then Except.ok () else loadRes) = Except.ok () := by
    rcases hload with h | h
    · simp [h]
    · cases isLoaded <;> simp [h]
  simp only [transcribeM, hok, hmx]
  cases modelIsNone with
  | true => exact ⟨emptyTResult, rfl⟩
  | false =>
    simp only [Bool.false_eq_true, if_false]
    split
    · exact runDecode_ok decodeRes
    · split
      · exact ⟨emptyTResult, rfl⟩
      · exact runDecode_ok decodeRes

/-- Witness for the amended C10 at a concrete input: one loud sample with
a failing decode still returns ok. -/
theorem c10_transcribe_total_witness :
    ((true : Bool) = true ∨ (Except.ok () : Except String Unit) = Except.ok ())
      ∧ ([(1 : ℚ) / 2] : List ℚ) ≠ [] ∧
    ∃ r, transcribeM true (Except.ok ()) false [(1 : ℚ) / 2]
        (Except.error "decode failed") = Except.ok r :=
  ⟨Or.inl rfl, by decide,
    c10_transcribe_total true (Except.ok ()) false [(1 : ℚ) / 2]
      (Except.error "decode failed") (Or.inl rfl) (by decide)⟩

/-! ## C8: duplicate triggers in the registry build -/

/-- C8 counterexample: registry construction performs no duplicate check.
An enabled custom command whose trigger is copy replaces the builtin copy
command during the build (its category becomes custom), while the default
build keeps the builtin. -/
theorem c8_duplicate_replaces_builtin :
    (dictGet "copy" (buildRegistry
      { disabledCommands := [], builtinOverrides := [],
        customCommands := [{ trigger := "copy", value := "<ctrl>+c",
                             requiresEnd := false, enabled := true }] })).map
      Cmd.category = some "custom" ∧
    (dictGet "copy" (buildRegistry defaultSettings)).map Cmd.category
      = some "general" := by decide

/-- C8 amended: the duplicate-trigger rejection with a user-visible
warning lives in the settings GUI when a custom command is added, and it
checks only against the existing custom commands; registry construction
itself performs no duplicate check, and an enabled custom command whose
trigger equals an already-registered trigger replaces the existing
command under that trigger. -/
theorem c8_duplicate_check_is_in_gui :
    (∀ (customs : List CustomCmd) (trigger value : String) (reqEnd : Bool),
        customs.any (fun c => c.trigger = lowerS (stripS trigger)) = true →
        addCustomCommand customs trigger value reqEnd = customs) ∧
    dictGet "copy" (buildRegistry
        { disabledCommands := [], builtinOverrides := [],
          customCommands := [{ trigger := "copy", value := "<ctrl>+t",
                               requiresEnd := true, enabled := true }] })
      = some { trigger := "copy", requiresContent := true,
               requiresEnd := true, subH := SubH.noSub,
               csubH := CSubH.noCSub, scanContent := true,
               category := "custom" } := by
  constructor
  · intro customs trigger value reqEnd h
    simp only [addCustomCommand]
    split
    · rfl
    · simp [h]
  · decide

/-- Witness for the amended C8: adding the duplicate trigger Copy over an
existing custom command copy leaves the list unchanged. -/
theorem c8_duplicate_check_is_in_gui_witness :
    (([{ trigger := "copy", value := "x", requiresEnd := false,
         enabled := true }] : List CustomCmd).any
      (fun c => c.trigger = lowerS (stripS " Copy ")) = true) ∧
    addCustomCommand
        [{ trigger := "copy", value := "x", requiresEnd := false,
           enabled := true }] " Copy " "y" false
      = [{ trigger := "copy", value := "x", requiresEnd := false,
           enabled := true }] :=
  ⟨by decide, c8_duplicate_check_is_in_gui.1 _ _ _ _ (by decide)⟩

/-! ## C1 and C6: the safe-commit protocol -/

theorem commitLoop_eq (cutoff : ℚ) (segs : List Seg) (acc : List Char)
    (sp : ℚ) (k : ℕ) :
    commitLoop cutoff segs acc sp k =
      (acc ++ List.flatten
        ((segs.takeWhile (fun sg => decide (sg.endT < cutoff))).map
          (fun sg => sg.text ++ [' '])),
       (segs.takeWhile (fun sg => decide (sg.endT < cutoff))).foldl
         (fun _ sg => sg.endT) sp,
       k + (segs.takeWhile (fun sg => decide (sg.endT < cutoff))).length) := by
  induction segs generalizing acc sp k with
  | nil => simp [commitLoop]
  | cons sg rest ih =>
    by_cases h : sg.endT < cutoff
    · rw [List.takeWhile_cons_of_pos (by simpa using h)]
      simp only [commitLoop, if_pos h, ih, List.map_cons, List.flatten_cons,
        List.foldl_cons, List.length_cons, Prod.mk.injEq, List.append_assoc]
      exact ⟨trivial, trivial, by omega⟩
    · rw [List.takeWhile_cons_of_neg (by simpa using h)]
      simp [commitLoop, h]

theorem foldl_endT_getLast (l : List Seg) (d : ℚ) (sg : Seg)
    (h : l.getLast? = some sg) :
    l.foldl (fun _ s => s.endT) d = sg.endT := by
  induction l generalizing d with
  | nil => simp at h
  | cons a rest ih =>
    cases rest with
    | nil =>
      simp at h
      simp [h]
    | cons b tl =>
      rw [List.getLast?_cons_cons] at h
      simpa using ih a.endT h

/-- The commit branch of one tick, shared shape for C1 and C6. -/
theorem tick_commit {α : Type} (st : TState α) (resText : List Char)
    (segs : List Seg) (cutoff : ℚ) (lastSg : Seg)
    (hct : cutoff = (st.buffer.length : ℚ) / (SAMPLE_RATE : ℚ) - 5)
    (hne : resText ≠ [])
    (hdur : 20 < (st.buffer.length : ℚ) / (SAMPLE_RATE : ℚ))
    (hlast : (segs.takeWhile (fun sg => decide (sg.endT < cutoff))).getLast?
      = some lastSg)
    (hpos : 0 < lastSg.endT) :
    tick st resText segs =
      { buffer :=
          st.buffer.drop (pyInt (lastSg.endT * (SAMPLE_RATE : ℚ))).toNat,
        confirmed := pyStrip (st.confirmed ++ (' ' :: List.flatten
          ((segs.takeWhile (fun sg => decide (sg.endT < cutoff))).map
            (fun sg => sg.text ++ [' '])))),
        pending := pyStrip (List.flatten
          ((segs.drop
              (segs.takeWhile (fun sg => decide (sg.endT < cutoff))).length).map
            Seg.text)) } := by
  have hsegs : segs ≠ [] := by
    intro hnil
    rw [hnil] at hlast
    simp at hlast
  have hsp :
      (segs.takeWhile (fun sg => decide (sg.endT < cutoff))).foldl
        (fun _ sg => sg.endT) 0 = lastSg.endT :=
    foldl_endT_getLast _ 0 lastSg hlast
  unfold tick
  rw [if_neg (by simpa using hne)]
  simp only
  rw [if_pos ⟨hdur, hsegs⟩]
  rw [← hct]
  rw [commitLoop_eq]
  simp only [hsp]
  rw [if_pos hpos]
  simp

/-- C1: on a tick where the buffer exceeds 20 s and the segment list is
non-empty, the controller commits exactly the maximal prefix of segments,
walked in order, whose end is strictly below buffer_duration - 5 s: their
texts are joined with trailing spaces onto confirmed (then stripped), the
audio below lastEnd times 16000 samples is dropped from the rolling
buffer, and pending becomes the concatenation of the remaining segment
texts.  The takeWhile expresses the walk-in-order-and-stop-at-the-first-
failure maximal prefix; lastSg is its last segment. -/
theorem c1_safe_commit {α : Type} (st : TState α) (resText : List Char)
    (segs : List Seg) (cutoff : ℚ) (lastSg : Seg)
    (hct : cutoff = (st.buffer.length : ℚ) / (SAMPLE_RATE : ℚ) - 5)
    (hne : resText ≠ [])
    (hdur : 20 < (st.buffer.length : ℚ) / (SAMPLE_RATE : ℚ))
    (hlast : (segs.takeWhile (fun sg => decide (sg.endT < cutoff))).getLast?
      = some lastSg)
    (hpos : 0 < lastSg.endT) :
    tick st resText segs =
      { buffer :=
          st.buffer.drop (pyInt (lastSg.endT * (SAMPLE_RATE : ℚ))).toNat,
        confirmed := pyStrip (st.confirmed ++ (' ' :: List.flatten
          ((segs.takeWhile (fun sg => decide (sg.endT < cutoff))).map
            (fun sg => sg.text ++ [' '])))),
        pending := pyStrip (List.flatten
          ((segs.drop
              (segs.takeWhile (fun sg => decide (sg.endT < cutoff))).length).map
            Seg.text)) } :=
  tick_commit st resText segs cutoff lastSg hct hne hdur hlast hpos

/-- Witness for C1: the 30 s example with segments ending at 5, 12, 19 and
26.  The cutoff is 25 s, the first three segments are committed, the
fourth stays pending, and the buffer keeps the samples from 19 s onward
(176000 of the 480000 samples). -/
theorem c1_safe_commit_witness :
    (25 : ℚ) = ((List.replicate 480000 (0 : ℚ)).length : ℚ)
        / (SAMPLE_RATE : ℚ) - 5 ∧
    ("t".data : List Char) ≠ [] ∧
    20 < ((List.replicate 480000 (0 : ℚ)).length : ℚ) / (SAMPLE_RATE : ℚ) ∧
    (([⟨0, 5, "alpha".data⟩, ⟨5, 12, "beta".data⟩, ⟨12, 19, "gamma".data⟩,
        ⟨19, 26, "delta".data⟩] : List Seg).takeWhile
        (fun sg => decide (sg.endT < (25 : ℚ)))).getLast?
      = some ⟨12, 19, "gamma".data⟩ ∧
    (0 : ℚ) < (19 : ℚ) ∧
    tick (initTState ℚ (List.replicate 480000 (0 : ℚ))) "t".data
        [⟨0, 5, "alpha".data⟩, ⟨5, 12, "beta".data⟩, ⟨12, 19, "gamma".data⟩,
         ⟨19, 26, "delta".data⟩] =
      { buffer := (List.replicate 480000 (0 : ℚ)).drop
          (pyInt ((19 : ℚ) * (SAMPLE_RATE : ℚ))).toNat,
        confirmed := pyStrip (([] : List Char) ++ (' ' :: List.flatten
          ((([⟨0, 5, "alpha".data⟩, ⟨5, 12, "beta".data⟩,
              ⟨12, 19, "gamma".data⟩, ⟨19, 26, "delta".data⟩] :
              List Seg).takeWhile
              (fun sg => decide (sg.endT < (25 : ℚ)))).map
            (fun sg => sg.text ++ [' '])))),
        pending := pyStrip (List.flatten
          ((([⟨0, 5, "alpha".data⟩, ⟨5, 12, "beta".data⟩,
              ⟨12, 19, "gamma".data⟩, ⟨19, 26, "delta".data⟩] :
              List Seg).drop
              (([⟨0, 5, "alpha".data⟩, ⟨5, 12, "beta".data⟩,
                 ⟨12, 19, "gamma".data⟩, ⟨19, 26, "delta".data⟩] :
                 List Seg).takeWhile
                (fun sg => decide (sg.endT < (25 : ℚ)))).length).map
            Seg.text)) } :=
  have h1 : (25 : ℚ) = ((List.replicate 480000 (0 : ℚ)).length : ℚ)
      / (SAMPLE_RATE : ℚ) - 5 := by
    rw [List.length_replicate, SAMPLE_RATE]; norm_num
  have h3 : 20 < ((List.replicate 480000 (0 : ℚ)).length : ℚ)
      / (SAMPLE_RATE : ℚ) := by
    rw [List.length_replicate, SAMPLE_RATE]; norm_num
  ⟨h1, by decide, h3, by decide, by norm_num,
    c1_safe_commit (initTState ℚ (List.replicate 480000 (0 : ℚ))) "t".data
      _ 25 ⟨12, 19, "gamma".data⟩ h1 (by decide) h3 (by decide) (by norm_num)⟩

/-- C6: after a safe-commit (the commit branch was taken on a tick), the
rolling buffer still holds at least 5 seconds of audio. -/
theorem c6_trailing_guard {α : Type} (st : TState α) (resText : List Char)
    (segs : List Seg) (cutoff : ℚ) (lastSg : Seg)
    (hct : cutoff = (st.buffer.length : ℚ) / (SAMPLE_RATE : ℚ) - 5)
    (hne : resText ≠ [])
    (hdur : 20 < (st.buffer.length : ℚ) / (SAMPLE_RATE : ℚ))
    (hlast : (segs.takeWhile (fun sg => decide (sg.endT < cutoff))).getLast?
      = some lastSg)
    (hpos : 0 < lastSg.endT) :
    5 ≤ (((tick st resText segs).buffer.length : ℚ) / (SAMPLE_RATE : ℚ)) := by
  have hmem : lastSg ∈ segs.takeWhile (fun sg => decide (sg.endT < cutoff)) := by
    obtain ⟨hnil, hx⟩ := List.mem_getLast?_eq_getLast
      (show lastSg ∈ (segs.takeWhile (fun sg => decide (sg.endT < cutoff))).getLast?
        by simp [Option.mem_def, hlast])
    exact hx ▸ List.getLast_mem hnil
  have hlt : lastSg.endT < cutoff := by
    have := List.mem_takeWhile_imp hmem
    simpa using this
  rw [tick_commit st resText segs cutoff lastSg hct hne hdur hlast hpos]
  simp only [List.length_drop]
  set L := st.buffer.length with hL
  set t := (pyInt (lastSg.endT * (SAMPLE_RATE : ℚ))).toNat with ht
  have hSR : ((SAMPLE_RATE : ℕ) : ℚ) = 16000 := by norm_num [SAMPLE_RATE]
  have h0 : (0 : ℚ) ≤ lastSg.endT * (SAMPLE_RATE : ℚ) :=
    mul_nonneg hpos.le (by positivity)
  have hint : pyInt (lastSg.endT * (SAMPLE_RATE : ℚ))
      = ⌊lastSg.endT * (SAMPLE_RATE : ℚ)⌋ := by
    unfold pyInt
    rw [if_pos h0]
  have hfl0 : 0 ≤ ⌊lastSg.endT * (SAMPLE_RATE : ℚ)⌋ := Int.floor_nonneg.mpr h0
  have htle : (t : ℚ) ≤ lastSg.endT * (SAMPLE_RATE : ℚ) := by
    have h2 : ((⌊lastSg.endT * (SAMPLE_RATE : ℚ)⌋.toNat : ℕ) : ℚ)
        = ((⌊lastSg.endT * (SAMPLE_RATE : ℚ)⌋ : ℤ) : ℚ) := by
      exact_mod_cast congrArg (fun z : ℤ => z)
        (Int.toNat_of_nonneg hfl0)
    rw [ht, hint, h2]
    exact Int.floor_le _
  have hcut : lastSg.endT * (SAMPLE_RATE : ℚ) < (L : ℚ) - 5 * 16000 := by
    rw [hct] at hlt
    have h16 : (0 : ℚ) < (SAMPLE_RATE : ℚ) := by rw [hSR]; norm_num
    have := mul_lt_mul_of_pos_right hlt h16
    calc lastSg.endT * (SAMPLE_RATE : ℚ)
        < ((L : ℚ) / (SAMPLE_RATE : ℚ) - 5) * (SAMPLE_RATE : ℚ) := this
      _ = (L : ℚ) - 5 * 16000 := by
          rw [hSR]; field_simp; ring
  have htlt : (t : ℚ) < (L : ℚ) := by
    have : (0 : ℚ) ≤ 5 * 16000 := by norm_num
    nlinarith
  have htn : t ≤ L := by exact_mod_cast le_of_lt htlt
  have hcast : ((L - t : ℕ) : ℚ) = (L : ℚ) - (t : ℚ) := Nat.cast_sub htn
  rw [hcast, hSR, le_div_iff₀ (by norm_num : (0 : ℚ) < 16000)]
  nlinarith

/-- Witness for C6: the same 30 s commit keeps 11 s of audio. -/
theorem c6_trailing_guard_witness :
    (25 : ℚ) = ((List.replicate 480000 (0 : ℚ)).length : ℚ)
        / (SAMPLE_RATE : ℚ) - 5 ∧
    ("t".data : List Char) ≠ [] ∧
    20 < ((List.replicate 480000 (0 : ℚ)).length : ℚ) / (SAMPLE_RATE : ℚ) ∧
    (([⟨0, 5, "a".data⟩, ⟨5, 12, "b".data⟩, ⟨12, 19, "c".data⟩,
        ⟨19, 26, "d".data⟩] : List Seg).takeWhile
        (fun sg => decide (sg.endT < (25 : ℚ)))).getLast?
      = some ⟨12, 19, "c".data⟩ ∧
    (0 : ℚ) < (19 : ℚ) ∧
    5 ≤ (((tick (initTState ℚ (List.replicate 480000 (0 : ℚ))) "t".data
        [⟨0, 5, "a".data⟩, ⟨5, 12, "b".data⟩, ⟨12, 19, "c".data⟩,
         ⟨19, 26, "d".data⟩]).buffer.length : ℚ) / (SAMPLE_RATE : ℚ)) :=
  have h1 : (25 : ℚ) = ((List.replicate 480000 (0 : ℚ)).length : ℚ)
      / (SAMPLE_RATE : ℚ) - 5 := by
    rw [List.length_replicate, SAMPLE_RATE]; norm_num
  have h3 : 20 < ((List.replicate 480000 (0 : ℚ)).length : ℚ)
      / (SAMPLE_RATE : ℚ) := by
    rw [List.length_replicate, SAMPLE_RATE]; norm_num
  ⟨h1, by decide, h3, by decide, by norm_num,
    c6_trailing_guard (initTState ℚ (List.replicate 480000 (0 : ℚ))) "t".data
      _ 25 ⟨12, 19, "c".data⟩ h1 (by decide) h3 (by decide) (by norm_num)⟩

/-! ## C5: confirmed is append-only -/

theorem dropWhile_head_not (p : Char → Bool) (l : List Char) :
    l.dropWhile p = [] ∨
      ∃ c t2, l.dropWhile p = c :: t2 ∧ p c = false := by
  induction l with
  | nil => left; rfl
  | cons c t ih =>
    by_cases h : p c
    · rw [List.dropWhile_cons_of_pos h]
      exact ih
    · rw [List.dropWhile_cons_of_neg h]
      exact Or.inr ⟨c, t, rfl, by simpa using h⟩

theorem reverse_dropWhile_reverse_decomp (p : Char → Bool) (y : List Char) :
    y = (y.reverse.dropWhile p).reverse ++ (y.reverse.takeWhile p).reverse := by
  calc y = y.reverse.reverse := (List.reverse_reverse y).symm
    _ = (y.reverse.takeWhile p ++ y.reverse.dropWhile p).reverse := by
        rw [List.takeWhile_append_dropWhile]
    _ = (y.reverse.dropWhile p).reverse ++ (y.reverse.takeWhile p).reverse := by
        rw [List.reverse_append]

theorem strippedOK_pyStrip (l : List Char) : StrippedOK (pyStrip l) := by
  have comp2 : (pyStrip l).reverse.dropWhile isPyWS = (pyStrip l).reverse := by
    unfold pyStrip
    rw [List.reverse_reverse]
    exact List.dropWhile_idempotent _ _
  refine ⟨?_, comp2⟩
  rcases dropWhile_head_not isPyWS l with hy | ⟨c, t2, hy, hc⟩
  · unfold pyStrip
    rw [hy]
    rfl
  · have hdec := reverse_dropWhile_reverse_decomp isPyWS (l.dropWhile isPyWS)
    cases hz : ((l.dropWhile isPyWS).reverse.dropWhile isPyWS).reverse with
    | nil =>
      unfold pyStrip
      rw [hz]
      rfl
    | cons d t3 =>
      rw [hz, hy] at hdec
      have hd : d = c := by
        rw [List.cons_append] at hdec
        exact (List.cons_eq_cons.mp hdec).1.symm
      unfold pyStrip
      rw [hz, hd]
      rw [List.dropWhile_cons_of_neg (by simp [hc])]

theorem strippedOK_id (l : List Char) (h : StrippedOK l) : pyStrip l = l := by
  unfold pyStrip
  rw [h.1, h.2, List.reverse_reverse]

/-- If c is already stripped, stripping c ++ r keeps c as a prefix. -/
theorem pyStrip_append_pre (c r : List Char) (h : StrippedOK c) :
    c <+: pyStrip (c ++ r) := by
  have hshape := dropWhile_head_not isPyWS c
  rw [h.1] at hshape
  rcases hshape with hc | ⟨a, c2, hc, ha⟩
  · rw [hc]
    exact List.nil_prefix
  · have step1 : (c ++ r).dropWhile isPyWS = c ++ r := by
      conv => lhs; rw [hc]
      rw [List.cons_append, List.dropWhile_cons_of_neg (by simp [ha])]
      rw [← List.cons_append, ← hc]
    unfold pyStrip
    rw [step1, List.reverse_append, List.dropWhile_append]
    by_cases hre : (r.reverse.dropWhile isPyWS).isEmpty
    · rw [if_pos hre]
      have h2 := h.2
      rw [h2, List.reverse_reverse]
    · rw [if_neg hre]
      rw [List.reverse_append, List.reverse_reverse]
      exact ⟨(r.reverse.dropWhile isPyWS).reverse, rfl⟩

/-- One tick only appends to confirmed (and keeps it stripped). -/
theorem tick_confirmed_step {α : Type} (st : TState α) (rt : List Char)
    (segs : List Seg) (h : StrippedOK st.confirmed) :
    st.confirmed <+: (tick st rt segs).confirmed ∧
      StrippedOK (tick st rt segs).confirmed := by
  unfold tick
  by_cases h1 : rt = []
  · rw [if_pos h1]
    exact ⟨List.prefix_refl _, h⟩
  · rw [if_neg h1]
    simp only
    by_cases h2 : (st.buffer.length : ℚ) / (SAMPLE_RATE : ℚ) > 20 ∧ segs ≠ []
    · rw [if_pos h2]
      by_cases h3 : (commitLoop ((st.buffer.length : ℚ) / (SAMPLE_RATE : ℚ) - 5)
          segs [] 0 0).2.1 > 0
      · rw [if_pos h3]
        exact ⟨pyStrip_append_pre _ _ h, strippedOK_pyStrip _⟩
      · rw [if_neg h3]
        exact ⟨List.prefix_refl _, h⟩
    · rw [if_neg h2]
      exact ⟨List.prefix_refl _, h⟩

theorem applyTicks_confirmed {α : Type}
    (ticks : List (List Char × List Seg)) (st : TState α)
    (h : StrippedOK st.confirmed) :
    st.confirmed <+: (applyTicks st ticks).confirmed ∧
      StrippedOK (applyTicks st ticks).confirmed := by
  induction ticks generalizing st with
  | nil => exact ⟨List.prefix_refl _, h⟩
  | cons tk rest ih =>
    obtain ⟨hpre, hok⟩ := tick_confirmed_step st tk.1 tk.2 h
    obtain ⟨hpre2, hok2⟩ := ih (tick st tk.1 tk.2) hok
    exact ⟨hpre.trans hpre2, hok2⟩

theorem applyTicks_append {α : Type} (st : TState α)
    (a b : List (List Char × List Seg)) :
    applyTicks st (a ++ b) = applyTicks (applyTicks st a) b := by
  induction a generalizing st with
  | nil => rfl
  | cons tk rest ih => simp [applyTicks, ih]

/-- C5: within one session, confirmed is append-only: after any further
ticks, the earlier confirmed text is a prefix of the later one, so text
absorbed into confirmed is never modified by a later tick. -/
theorem c5_confirmed_append_only {α : Type} (buf : List α)
    (pre suf : List (List Char × List Seg)) :
    (applyTicks (initTState α buf) pre).confirmed <+:
      (applyTicks (initTState α buf) (pre ++ suf)).confirmed := by
  have hinit : StrippedOK (initTState α buf).confirmed := ⟨rfl, rfl⟩
  have hmid := applyTicks_confirmed pre (initTState α buf) hinit
  rw [applyTicks_append]
  exact (applyTicks_confirmed suf _ hmid.2).1

/-! ## C7: cross-tick deduplication -/

theorem scanInv_nil (s : List (List Char)) : ScanInv s [] s :=
  ⟨⟨[], by simp⟩, by simp, by simp, by simp⟩

theorem scanInv_grow (s : List (List Char)) (e : List (List Char)) :
    ScanInv s [] (s ++ e) :=
  ⟨⟨e, rfl⟩, by simp, by simp, by simp⟩

theorem scanInv_sub (s1 s2 : List (List Char)) (h : ∃ e, s2 = s1 ++ e) :
    ∀ x, x ∈ s1 → x ∈ s2 := by
  obtain ⟨e, he⟩ := h
  intro x hx
  rw [he]
  exact List.mem_append_left e hx

theorem scanInv_comp (s1 s2 s3 : List (List Char))
    (ms1 ms2 : List CmdMatch)
    (h1 : ScanInv s1 ms1 s2) (h2 : ScanInv s2 ms2 s3) :
    ScanInv s1 (ms1 ++ ms2) s3 := by
  obtain ⟨⟨e1, he1⟩, hf1, ha1, hn1⟩ := h1
  obtain ⟨⟨e2, he2⟩, hf2, ha2, hn2⟩ := h2
  refine ⟨⟨e1 ++ e2, by rw [he2, he1, List.append_assoc]⟩, ?_, ?_, ?_⟩
  · intro m hm
    rcases List.mem_append.mp hm with h | h
    · exact hf1 m h
    · intro hmem
      exact hf2 m h (scanInv_sub s1 s2 ⟨e1, he1⟩ _ hmem)
  · intro m hm
    rcases List.mem_append.mp hm with h | h
    · exact scanInv_sub s2 s3 ⟨e2, he2⟩ _ (ha1 m h)
    · exact ha2 m h
  · rw [List.map_append]
    rw [List.nodup_append]
    refine ⟨hn1, hn2, ?_⟩
    intro k hk1 hk2
    obtain ⟨m1, hm1, hk1e⟩ := List.mem_map.mp hk1
    obtain ⟨m2, hm2, hk2e⟩ := List.mem_map.mp hk2
    exact hf2 m2 hm2 (hk2e ▸ hk1e ▸ ha1 m1 hm1)

theorem scanInv_single (s : List (List Char)) (m : CmdMatch)
    (h : mkey m ∉ s) : ScanInv s [m] (s ++ [mkey m]) := by
  refine ⟨⟨[mkey m], rfl⟩, ?_, ?_, ?_⟩
  · intro x hx
    rw [List.mem_singleton.mp hx]
    exact h
  · intro x hx
    rw [List.mem_singleton.mp hx]
    exact List.mem_append_right _ (List.mem_singleton.mpr rfl)
  · simp

theorem procAll_inv (env : Env) (nested : Bool) (n : ℕ)
    (SubIH : ∀ (sn : List (List Char)) (c : List Char),
      ScanInv sn (scanL env n sn c true).ms (scanL env n sn c true).seen) :
    ∀ (fs : List Found) (seen : List (List Char)),
      ScanInv seen
        (procAll (fun s c => scanL env n s c true) env nested fs seen).ms
        (procAll (fun s c => scanL env n s c true) env nested fs seen).seen
  | [], seen => scanInv_nil seen
  | f :: rest, seen => by
    simp only [procAll]
    by_cases hdup : lowerL f.full ∈ seen
    · rw [if_pos hdup]
      exact procAll_inv env nested n SubIH rest seen
    · rw [if_neg hdup]
      by_cases hclip : nested ∧ f.cmd.subH = SubH.clipSub
      · rw [if_pos hclip]
        refine scanInv_comp seen (seen ++ [lowerL f.full]) _ [] _
          (scanInv_grow seen [lowerL f.full]) ?_
        exact procAll_inv env nested n SubIH rest (seen ++ [lowerL f.full])
      · rw [if_neg hclip]
        by_cases hcs : f.cmd.csubH ≠ CSubH.noCSub
        · rw [if_pos hcs]
          set seen1 := seen ++ [lowerL f.full] with hseen1
          set contentOrig :=
            if f.cmd.requiresContent ∧ pyStrip (lowerL (f.contentQ.getD [])) ≠ []
            then f.contentQ.getD [] else [] with hco
          set sub : ScanRes :=
            if contentOrig ≠ [] ∧ f.cmd.scanContent then
              let q := scanL env n seen1 contentOrig true
              { cleaned := pyStrip q.cleaned, ms := q.ms, seen := q.seen,
                aiCalls := q.aiCalls }
            else
              { cleaned := contentOrig, ms := [], seen := seen1,
                aiCalls := [] } with hsub
          have hsubInv : ScanInv seen1 sub.ms sub.seen := by
            rw [hsub]
            split
            · exact SubIH seen1 contentOrig
            · exact scanInv_nil seen1
          have hrest := procAll_inv env nested n SubIH rest sub.seen
          have h01 : ScanInv seen ([] : List CmdMatch) seen1 :=
            scanInv_grow seen [lowerL f.full]
          have h02 : ScanInv seen sub.ms sub.seen :=
            scanInv_comp _ _ _ _ _ h01 hsubInv
          exact scanInv_comp _ _ _ _ _ h02 hrest
        · rw [if_neg hcs]
          set seen1 := seen ++ [lowerL f.full] with hseen1
          set contentOrig :=
            if f.cmd.requiresContent ∧ pyStrip (lowerL (f.contentQ.getD [])) ≠ []
            then f.contentQ.getD [] else [] with hco
          set sub : ScanRes :=
            if contentOrig ≠ [] then scanL env n seen1 contentOrig true
            else
              { cleaned := contentOrig, ms := [], seen := seen1,
                aiCalls := [] } with hsub
          have hsubInv : ScanInv seen1 sub.ms sub.seen := by
            rw [hsub]
            split
            · exact SubIH seen1 contentOrig
            · exact scanInv_nil seen1
          have hrest := procAll_inv env nested n SubIH rest sub.seen
          set changed := (sub.ms ≠ [] ∨ sub.cleaned ≠ contentOrig) with hch
          set outer : CmdMatch :=
            { command := f.cmd,
              content :=
                if contentOrig ≠ [] ∧ changed then String.mk (pyStrip sub.cleaned)
                else String.mk contentOrig,
              fullMatch := String.mk f.full } with hout
          have houtkey : mkey outer = lowerL f.full := rfl
          have houter : ScanInv seen [outer] seen1 := by
            rw [hseen1, ← houtkey]
            exact scanInv_single seen outer (by rw [houtkey]; exact hdup)
          have hsubMs : ScanInv seen1
              (if contentOrig ≠ [] ∧ changed then sub.ms else []) sub.seen := by
            split
            · exact hsubInv
            · obtain ⟨e, he⟩ := hsubInv.1
              rw [he]
              exact scanInv_grow seen1 e
          have hcomp1 : ScanInv seen
              ([outer] ++ (if contentOrig ≠ [] ∧ changed then sub.ms else []))
              sub.seen := scanInv_comp _ _ _ _ _ houter hsubMs
          have hcomp2 := scanInv_comp _ _ _ _ _ hcomp1 hrest
          simpa using hcomp2

theorem scanL_inv (env : Env) :
    ∀ (fuel : ℕ) (seen : List (List Char)) (t : List Char) (nested : Bool),
      ScanInv seen (scanL env fuel seen t nested).ms
        (scanL env fuel seen t nested).seen
  | 0, seen, t, nested => scanInv_nil seen
  | fuel + 1, seen, t, nested => by
    simp only [scanL]
    by_cases ht : t = []
    · rw [if_pos ht]
      exact scanInv_nil seen
    · rw [if_neg ht]
      simp only
      exact procAll_inv env nested fuel
        (fun sn c => scanL_inv env fuel sn c true)
        (findAll scanCmds (t.length + 1) t 0) seen

theorem scanSession_inv (env : Env) :
    ∀ (ts : List String) (seen : List (List Char)),
      ScanInv seen (scanSession env ts seen).1 (scanSession env ts seen).2
  | [], seen => scanInv_nil seen
  | s :: rest, seen => by
    simp only [scanSession]
    exact scanInv_comp _ _ _ _ _
      (scanL_inv env (s.data.length + 1) seen s.data false)
      (scanSession_inv env rest (scanText env seen s).seen)

/-- C7: within one session (the dedup set starts empty at reset and is
threaded through every scan_text call), the canonicalized (lowercased)
full-match substrings of all emitted CommandMatch records are pairwise
distinct: each canonicalized full match is emitted, and hence executed,
at most once. -/
theorem c7_session_dedup (env : Env) (ts : List String) :
    ((scanSession env ts []).1.map mkey).Nodup :=
  (scanSession_inv env ts []).2.2.2

/-! ## C2: the cleaner is not a projection -/

/-- C2 counterexample: on the transcript okay raw text okay copy okay
done, the first scan substitutes the raw-text content verbatim, yielding
the cleaned text okay copy; the second scan, sharing the session dedup
state, then matches and removes okay copy, so scanning the cleaned text
changes it. -/
theorem c2_not_projection :
    (scanText { clip := "", ai := fun _ => "" }
        (scanText { clip := "", ai := fun _ => "" } []
          "okay raw text okay copy okay done").seen
        (String.mk (scanText { clip := "", ai := fun _ => "" } []
          "okay raw text okay copy okay done").cleaned)).cleaned
      ≠ (scanText { clip := "", ai := fun _ => "" } []
          "okay raw text okay copy okay done").cleaned := by decide

theorem matchLit_pre (w : List Char) :
    ∀ (l r : List Char), matchLit w l = some r → w <+: lowerL l := by
  induction w with
  | nil => intro l r _; exact List.nil_prefix
  | cons wc ws ih =>
    intro l r h
    cases l with
    | nil => simp [matchLit] at h
    | cons c cs =>
      simp only [matchLit] at h
      split at h
      case isTrue heq =>
        have htail := ih cs r h
        show wc :: ws <+: c.toLower :: lowerL cs
        exact List.cons_prefix_cons.mpr ⟨heq.symm, htail⟩
      case isFalse => exact absurd h (by simp)

theorem litC_eq_nil (w l : List Char) (h : ¬ w <+: lowerL l) :
    litC w l = [] := by
  unfold litC
  cases hm : matchLit w l with
  | none => rfl
  | some r => exact absurd (matchLit_pre w l r hm) h

theorem flatMap_litC_nil (ws : List (List Char)) (l : List Char)
    (h : ∀ w ∈ ws, ¬ w <+: lowerL l) :
    ws.flatMap (fun w => litC w l) = [] := by
  induction ws with
  | nil => rfl
  | cons w rest ih =>
    rw [List.flatMap_cons, litC_eq_nil w l (h w (by simp)), List.nil_append]
    exact ih (fun w2 hw2 => h w2 (by simp [hw2]))

theorem trigCands_eq_nil (l : List Char)
    (h : ∀ w ∈ trigWords, ¬ w <+: lowerL l) : trigCands l = [] :=
  flatMap_litC_nil trigWords l h

theorem foldl_flatMap_nil (fs : List (List Char → List (List Char))) :
    fs.foldl (fun acc f => acc.flatMap f) ([] : List (List Char)) = [] := by
  induction fs with
  | nil => rfl
  | cons f rest ih => simpa using ih

theorem chainCands_cons_nil (f : List Char → List (List Char))
    (fs : List (List Char → List (List Char))) (l : List Char)
    (h : f l = []) : chainCands (f :: fs) l = [] := by
  unfold chainCands
  rw [List.foldl_cons]
  have h1 : ([l] : List (List Char)).flatMap f = [] := by simp [h]
  rw [h1]
  exact foldl_flatMap_nil fs

theorem prefixCands_eq_nil (cmd : Cmd) (l : List Char)
    (h : trigCands l = []) : prefixCands cmd l = [] :=
  chainCands_cons_nil _ _ _ h

theorem matchHere_eq_none (cmds : List Cmd) (l : List Char) (pos : ℕ)
    (h : trigCands l = []) : matchHere cmds l pos = none := by
  unfold matchHere
  rw [List.findSome?_eq_none_iff]
  intro cmd _
  show tryCmd cmd l pos = none
  unfold tryCmd
  by_cases hre : cmd.requiresEnd
  · rw [if_pos hre]
    have hb : bracketedM cmd l = none := by
      unfold bracketedM
      rw [prefixCands_eq_nil cmd l h]
      rfl
    rw [hb]
  · rw [if_neg hre]
    have hi : instM cmd l = none := by
      unfold instM
      rw [prefixCands_eq_nil cmd l h]
      rfl
    rw [hi]

theorem findFrom_eq_none (cmds : List Cmd) (l : List Char)
    (h : ∀ s, s <:+ l → trigCands s = []) :
    ∀ pos, findFrom cmds l pos = none := by
  induction l with
  | nil =>
    intro pos
    simp [findFrom, matchHere_eq_none cmds [] pos (h [] (List.suffix_refl []))]
  | cons c tl ih =>
    intro pos
    simp only [findFrom]
    rw [matchHere_eq_none cmds (c :: tl) pos (h _ (List.suffix_refl _))]
    exact ih (fun s hs => h s (hs.trans (List.suffix_cons c tl))) (pos + 1)

theorem findAll_eq_nil (cmds : List Cmd) (fuel : ℕ) (l : List Char)
    (pos : ℕ) (h : ∀ s, s <:+ l → trigCands s = []) :
    findAll cmds fuel l pos = [] := by
  cases fuel with
  | zero => rfl
  | succ n =>
    unfold findAll
    rw [findFrom_eq_none cmds l h pos]

theorem scanL_no_trig (env : Env) (n : ℕ) (seen : List (List Char))
    (t : List Char) (nested : Bool)
    (h : ∀ s, s <:+ t → trigCands s = []) :
    scanL env (n + 1) seen t nested =
      { cleaned := cleanupL t, ms := [], seen := seen, aiCalls := [] } := by
  simp only [scanL]
  by_cases ht : t = []
  · rw [if_pos ht]
    subst ht
    rfl
  · rw [if_neg ht]
    have hfa : findAll scanCmds (t.length + 1) t 0 = [] :=
      findAll_eq_nil scanCmds (t.length + 1) t 0 h
    rw [hfa]
    rfl

theorem occursB_false_suffix (w l : List Char) (h : occursB w l = false)
    (s : List Char) (hs : s <:+ l) : ¬ w <+: lowerL s := by
  intro hp
  obtain ⟨u, hu⟩ := hs
  have hi : l.drop u.length = s := by
    rw [← hu]
    exact List.drop_left u s
  have hlen : u.length < l.length + 1 := by
    rw [← hu]
    simp
    omega
  have hall := List.any_eq_false.mp h u.length
    (List.mem_range.mpr hlen)
  apply hall
  rw [hi]
  exact (List.isPrefixOf_iff_prefix).mpr hp

theorem occursB_true_elim (w l : List Char) (h : occursB w l = true) :
    ∃ s, s <:+ l ∧ w <+: lowerL s := by
  obtain ⟨i, _, hp⟩ := List.any_eq_true.mp h
  exact ⟨l.drop i, List.drop_suffix i l,
    (List.isPrefixOf_iff_prefix).mp hp⟩

theorem prefix_lower_collapse (w : List Char) :
    ∀ (t : List Char), (∀ c ∈ w, isSpTab c = false) →
      w <+: lowerL (collapseGo false t) → w <+: lowerL t := by
  intro t
  induction t generalizing w with
  | nil =>
    intro _ hp
    simpa [collapseGo] using hp
  | cons c rest ih =>
    intro hw hp
    by_cases hc : isSpTab c
    · rw [show collapseGo false (c :: rest) = ' ' :: collapseGo true rest by
        simp [collapseGo, hc]] at hp
      cases w with
      | nil => exact List.nil_prefix
      | cons wc ws =>
        exfalso
        have hwc : wc = ' ' := by
          have := (List.cons_prefix_cons.mp hp).1
          simpa using this
        have := hw wc (by simp)
        rw [hwc] at this
        simp [isSpTab] at this
    · rw [show collapseGo false (c :: rest) = c :: collapseGo false rest by
        simp [collapseGo, hc]] at hp
      cases w with
      | nil => exact List.nil_prefix
      | cons wc ws =>
        obtain ⟨hwc, hws⟩ := List.cons_prefix_cons.mp hp
        exact List.cons_prefix_cons.mpr
          ⟨hwc, ih ws (fun x hx => hw x (by simp [hx])) hws⟩

theorem occurs_collapse (w : List Char) (hw : ∀ c ∈ w, isSpTab c = false)
    (hne : w ≠ []) :
    ∀ (t : List Char) (b : Bool) (s : List Char),
      s <:+ collapseGo b t → w <+: lowerL s →
      ∃ s2, s2 <:+ t ∧ w <+: lowerL s2 := by
  intro t
  induction t with
  | nil =>
    intro b s hs hp
    have hs0 : s = [] := List.suffix_nil.mp (by simpa [collapseGo] using hs)
    subst hs0
    exact absurd (List.prefix_nil.mp hp) hne
  | cons c rest ih =>
    intro b s hs hp
    by_cases hc : isSpTab c
    · cases b with
      | true =>
        rw [show collapseGo true (c :: rest) = collapseGo true rest by
          simp [collapseGo, hc]] at hs
        obtain ⟨s2, hs2, hp2⟩ := ih true s hs hp
        exact ⟨s2, hs2.trans (List.suffix_cons c rest), hp2⟩
      | false =>
        rw [show collapseGo false (c :: rest) = ' ' :: collapseGo true rest by
          simp [collapseGo, hc]] at hs
        rcases List.suffix_cons_iff.mp hs with hEq | hsX
        · subst hEq
          cases w with
          | nil => exact absurd rfl hne
          | cons wc ws =>
            exfalso
            have hwc : wc = ' ' := by
              have := (List.cons_prefix_cons.mp hp).1
              simpa using this
            have := hw wc (by simp)
            rw [hwc] at this
            simp [isSpTab] at this
        · obtain ⟨s2, hs2, hp2⟩ := ih true s hsX hp
          exact ⟨s2, hs2.trans (List.suffix_cons c rest), hp2⟩
    · rw [show collapseGo b (c :: rest) = c :: collapseGo false rest by
        cases b <;> simp [collapseGo, hc]] at hs
      rcases List.suffix_cons_iff.mp hs with hEq | hsX
      · subst hEq
        cases w with
        | nil => exact absurd rfl hne
        | cons wc ws =>
          obtain ⟨hwc, hws⟩ := List.cons_prefix_cons.mp hp
          refine ⟨c :: rest, List.suffix_refl _, ?_⟩
          exact List.cons_prefix_cons.mpr
            ⟨hwc, prefix_lower_collapse ws rest
              (fun x hx => hw x (by simp [hx])) hws⟩
      · obtain ⟨s2, hs2, hp2⟩ := ih false s hsX hp
        exact ⟨s2, hs2.trans (List.suffix_cons c rest), hp2⟩

theorem pyStrip_inf (l : List Char) : pyStrip l <:+: l := by
  refine ⟨l.takeWhile isPyWS,
    ((l.dropWhile isPyWS).reverse.takeWhile isPyWS).reverse, ?_⟩
  have h2 : pyStrip l ++
      ((l.dropWhile isPyWS).reverse.takeWhile isPyWS).reverse
      = l.dropWhile isPyWS :=
    (reverse_dropWhile_reverse_decomp isPyWS (l.dropWhile isPyWS)).symm
  rw [List.append_assoc, h2]
  exact List.takeWhile_append_dropWhile isPyWS l

theorem occurs_infix (w x y : List Char) (hx : x <:+: y) (s : List Char)
    (hs : s <:+ x) (hp : w <+: lowerL s) :
    ∃ s2, s2 <:+ y ∧ w <+: lowerL s2 := by
  obtain ⟨a, b, hab⟩ := hx
  obtain ⟨u, hu⟩ := hs
  refine ⟨s ++ b, ⟨a ++ u, ?_⟩, ?_⟩
  · rw [← hab, ← hu]
    simp [List.append_assoc]
  · unfold lowerL
    rw [List.map_append]
    exact hp.trans (List.prefix_append _ _)

theorem occursB_cleanup_false (w t : List Char)
    (hw : ∀ c ∈ w, isSpTab c = false) (hne : w ≠ [])
    (h : occursB w t = false) : occursB w (cleanupL t) = false := by
  by_contra hb
  obtain ⟨s, hs, hp⟩ := occursB_true_elim w (cleanupL t)
    (by simpa using hb)
  obtain ⟨s2, hs2, hp2⟩ := occurs_infix w (cleanupL t) (collapseST t)
    (pyStrip_inf (collapseST t)) s hs hp
  obtain ⟨s3, hs3, hp3⟩ := occurs_collapse w hw hne t false s2 hs2 hp2
  exact occursB_false_suffix w t h s3 hs3 hp3

theorem head_collapse_true_not_spTab (t : List Char) :
    ∀ d, (collapseGo true t).head? = some d → isSpTab d = false := by
  induction t with
  | nil => intro d hd; simp [collapseGo] at hd
  | cons c rest ih =>
    intro d hd
    by_cases hc : isSpTab c
    · rw [show collapseGo true (c :: rest) = collapseGo true rest by
        simp [collapseGo, hc]] at hd
      exact ih d hd
    · rw [show collapseGo true (c :: rest) = c :: collapseGo false rest by
        simp [collapseGo, hc]] at hd
      simp only [List.head?_cons, Option.some.injEq] at hd
      rw [← hd]
      simpa using hc

theorem noRuns_collapseGo (t : List Char) : ∀ b, NoRuns (collapseGo b t) := by
  induction t with
  | nil => intro b; exact ⟨by simp [collapseGo], by simp [collapseGo]⟩
  | cons c rest ih =>
    intro b
    by_cases hc : isSpTab c
    · cases b with
      | true =>
        rw [show collapseGo true (c :: rest) = collapseGo true rest by
          simp [collapseGo, hc]]
        exact ih true
      | false =>
        rw [show collapseGo false (c :: rest) = ' ' :: collapseGo true rest by
          simp [collapseGo, hc]]
        refine ⟨?_, ?_⟩
        · intro hmem
          rcases List.mem_cons.mp hmem with h1 | h1
          · simp at h1
          · exact (ih true).1 h1
        · rw [List.chain'_cons']
          refine ⟨?_, (ih true).2⟩
          intro d hd
          have hnd := head_collapse_true_not_spTab rest d hd
          intro hcon
          simp [hnd] at hcon
    · rw [show collapseGo b (c :: rest) = c :: collapseGo false rest by
        cases b <;> simp [collapseGo, hc]]
      refine ⟨?_, ?_⟩
      · intro hmem
        rcases List.mem_cons.mp hmem with h1 | h1
        · rw [← h1] at hc
          simp [isSpTab] at hc
        · exact (ih false).1 h1
      · rw [List.chain'_cons']
        refine ⟨?_, (ih false).2⟩
        intro d _
        intro hcon
        exact hc hcon.1

theorem collapseGo_id (l : List Char) (h : NoRuns l) :
    collapseGo false l = l ∧
      ((l.head?.all fun d => !isSpTab d) = true → collapseGo true l = l) := by
  induction l with
  | nil => exact ⟨rfl, fun _ => rfl⟩
  | cons c rest ih =>
    have htail : NoRuns rest := by
      refine ⟨fun hm => h.1 (List.mem_cons_of_mem c hm), ?_⟩
      exact (List.chain'_cons'.mp h.2).2
    have hR := (List.chain'_cons'.mp h.2).1
    obtain ⟨ih1, ih2⟩ := ih htail
    constructor
    · by_cases hc : isSpTab c
      · have hcsp : c = ' ' := by
          have hnt : c ≠ '\t' := fun hct => h.1 (by simp [hct])
          rcases (by simpa [isSpTab] using hc : c = ' ' ∨ c = '\t') with
            h1 | h1
          · exact h1
          · exact absurd h1 hnt
        rw [show collapseGo false (c :: rest) = ' ' :: collapseGo true rest by
          simp [collapseGo, hc]]
        rw [hcsp]
        congr 1
        apply ih2
        cases hrest : rest.head? with
        | none => simp [hrest]
        | some d =>
          have hd := hR d hrest
          simp only [hrest, Option.all_some]
          rw [hcsp] at hd
          by_cases hdsp : isSpTab d
          · exact absurd ⟨by simp [isSpTab], hdsp⟩ hd
          · simp [hdsp]
      · rw [show collapseGo false (c :: rest) = c :: collapseGo false rest by
          simp [collapseGo, hc]]
        rw [ih1]
    · intro hhead
      have hc : isSpTab c = false := by
        simpa using hhead
      rw [show collapseGo true (c :: rest) = c :: collapseGo false rest by
        simp [collapseGo, hc]]
      rw [ih1]

theorem noRuns_infix (x y : List Char) (h : x <:+: y) (hy : NoRuns y) :
    NoRuns x := by
  refine ⟨fun hm => hy.1 (h.subset hm), ?_⟩
  obtain ⟨a, b, hab⟩ := h
  have h2 := hy.2
  rw [← hab] at h2
  have h3 := (List.chain'_append.mp h2).1
  exact (List.chain'_append.mp h3).2.1

theorem cleanup_idem (t : List Char) : cleanupL (cleanupL t) = cleanupL t := by
  show pyStrip (collapseST (pyStrip (collapseST t))) = pyStrip (collapseST t)
  have h1 : NoRuns (collapseST t) := noRuns_collapseGo t false
  have h2 : NoRuns (pyStrip (collapseST t)) :=
    noRuns_infix _ _ (pyStrip_inf _) h1
  rw [show collapseST (pyStrip (collapseST t)) = pyStrip (collapseST t) from
    (collapseGo_id _ h2).1]
  exact strippedOK_id _ (strippedOK_pyStrip _)

theorem trigWords_shape :
    ∀ w ∈ trigWords, (∀ c ∈ w, isSpTab c = false) ∧ w ≠ [] := by decide

/-- C2 amended: scanning is a projection on transcripts that contain no
wake-word variation (okay, ok, o.k., o.k. in any case): such transcripts
match no command, so the first scan only applies the whitespace cleanup
and the second scan is a no-op on its output.  In general the claim fails
because removing or substituting a command span can create a new command
phrase in the cleaned text, which the second scan then consumes. -/
theorem c2_projection_without_commands (env : Env)
    (seen : List (List Char)) (t : String)
    (h : ∀ w ∈ trigWords, occursB w t.data = false) :
    (scanText env (scanText env seen t).seen
        (String.mk (scanText env seen t).cleaned)).cleaned
      = (scanText env seen t).cleaned := by
  have htf : ∀ s, s <:+ t.data → trigCands s = [] := fun s hs =>
    trigCands_eq_nil s (fun w hw =>
      occursB_false_suffix w t.data (h w hw) s hs)
  have h1 : scanText env seen t =
      { cleaned := cleanupL t.data, ms := [], seen := seen,
        aiCalls := [] } :=
    scanL_no_trig env t.data.length seen t.data false htf
  have hocc2 : ∀ w ∈ trigWords, occursB w (cleanupL t.data) = false :=
    fun w hw => occursB_cleanup_false w t.data (trigWords_shape w hw).1
      (trigWords_shape w hw).2 (h w hw)
  have htf2 : ∀ s, s <:+ cleanupL t.data → trigCands s = [] := fun s hs =>
    trigCands_eq_nil s (fun w hw =>
      occursB_false_suffix w (cleanupL t.data) (hocc2 w hw) s hs)
  have h2 : scanText env seen (String.mk (cleanupL t.data)) =
      { cleaned := cleanupL (cleanupL t.data), ms := [], seen := seen,
        aiCalls := [] } :=
    scanL_no_trig env (cleanupL t.data).length seen (cleanupL t.data)
      false htf2
  rw [h1]
  simp only
  rw [h2]
  simp only
  exact cleanup_idem t.data

/-- Witness for the amended C2 on the command-free transcript hello
world. -/
theorem c2_projection_without_commands_witness :
    (∀ w ∈ trigWords, occursB w "hello world".data = false) ∧
    (scanText { clip := "", ai := fun _ => "" }
        (scanText { clip := "", ai := fun _ => "" } [] "hello world").seen
        (String.mk (scanText { clip := "", ai := fun _ => "" } []
          "hello world").cleaned)).cleaned
      = (scanText { clip := "", ai := fun _ => "" } []
          "hello world").cleaned :=
  ⟨by decide, c2_projection_without_commands _ [] "hello world" (by decide)⟩

/-! ## C3: nested paste inside delta -/

/-- C3: for clipboard contents PY and any sanitized AI response function,
scanning the transcript okay delta summarise okay paste okay done emits no
CommandMatch at all (in particular none for paste, so no Ctrl+V action is
executed); the nested paste is resolved by its substitution handler so
that the AI service receives the query summarise PY; and the cleaned text
is the sanitized response to that query, substituted for the whole delta
span (and then run through the usual whitespace cleanup). -/
theorem c3_delta_nested_paste (ai : String → String) :
    (scanText { clip := "PY", ai := ai } []
      "okay delta summarise okay paste okay done").ms = [] ∧
    (scanText { clip := "PY", ai := ai } []
      "okay delta summarise okay paste okay done").aiCalls
      = ["summarise PY"] ∧
    (scanText { clip := "PY", ai := ai } []
      "okay delta summarise okay paste okay done").cleaned
      = cleanupL (ai "summarise PY").data := by
  refine ⟨rfl, rfl, ?_⟩
  have h1 : (scanText { clip := "PY", ai := ai } []
      "okay delta summarise okay paste okay done").cleaned
      = cleanupL ((ai "summarise PY").data ++ []) := rfl
  rw [h1, List.append_nil]

/-! ## C4: the raw text escape hatch -/

/-- C4 counterexample: for s = ab. (which contains no trigger phrase),
the separator regex of the closing pattern eats the trailing dot, so the
cleaned text is ab, not s.trim() = ab. with the dot. -/
theorem c4_not_verbatim :
    (scanText { clip := "", ai := fun _ => "" } []
        ("okay raw text " ++ "ab." ++ " okay done")).cleaned = "ab".data ∧
    (scanText { clip := "", ai := fun _ => "" } []
        ("okay raw text " ++ "ab." ++ " okay done")).cleaned
      ≠ pyStrip "ab.".data := by decide

theorem countWhile_cons_pos {p : Char → Bool} {c : Char} (l : List Char)
    (h : p c = true) : countWhile p (c :: l) = countWhile p l + 1 := by
  simp [countWhile, h]

theorem countWhile_cons_neg {p : Char → Bool} {c : Char} (l : List Char)
    (h : p c = false) : countWhile p (c :: l) = 0 := by
  simp [countWhile, h]

theorem countWhile_append_all {p : Char → Bool} (a b : List Char)
    (h : ∀ c ∈ a, p c = true) :
    countWhile p (a ++ b) = a.length + countWhile p b := by
  induction a with
  | nil => simp
  | cons c t ih =>
    rw [List.cons_append, countWhile_cons_pos _ (h c (by simp))]
    rw [ih (fun x hx => h x (by simp [hx]))]
    simp
    omega

theorem countWhile_all {p : Char → Bool} (a : List Char)
    (h : ∀ c ∈ a, p c = true) : countWhile p a = a.length := by
  have := countWhile_append_all a [] h
  simpa using this

theorem take_countWhile_all {p : Char → Bool} (l : List Char) (j : ℕ)
    (h : j ≤ countWhile p l) : ∀ c ∈ l.take j, p c = true := by
  induction l generalizing j with
  | nil => simp
  | cons c t ih =>
    cases j with
    | zero => simp
    | succ i =>
      by_cases hc : p c
      · rw [countWhile_cons_pos _ hc] at h
        intro x hx
        rcases List.mem_cons.mp (by simpa using hx) with h1 | h1
        · rw [h1]; exact hc
        · exact ih i (by omega) x h1
      · rw [countWhile_cons_neg _ (by simpa using hc)] at h
        omega

theorem sufsDesc_cons (l : List Char) (hi lo : ℕ) (h : lo ≤ hi + 1) :
    sufsDesc l (hi + 1) lo = l.drop (hi + 1) :: sufsDesc l hi lo := by
  unfold sufsDesc
  have hr : hi + 1 + 1 - lo = (hi + 1 - lo) + 1 := by omega
  rw [hr, List.range_succ_eq_map, List.map_cons, List.map_map]
  simp only [Nat.sub_zero]
  congr 1
  apply List.map_congr_left
  intro i hi2
  have hlt : i < hi + 1 - lo := List.mem_range.mp hi2
  simp only [Function.comp_apply]
  congr 1
  omega

theorem sufsDesc_empty (l : List Char) (hi lo : ℕ) (h : hi + 1 ≤ lo) :
    sufsDesc l hi lo = [] := by
  unfold sufsDesc
  have : hi + 1 - lo = 0 := by omega
  rw [this]
  rfl

theorem mem_sufsDesc {l : List Char} {hi lo : ℕ} {y : List Char}
    (h : y ∈ sufsDesc l hi lo) : ∃ j, lo ≤ j ∧ j ≤ hi ∧ y = l.drop j := by
  unfold sufsDesc at h
  obtain ⟨i, hi2, he⟩ := List.mem_map.mp h
  have hir := List.mem_range.mp hi2
  exact ⟨hi - i, by omega, by omega, he.symm⟩

theorem firstSome_spec {β : Type} (g : ℕ → Option β) (k : ℕ) (v : β)
    (h0 : ∀ i < k, g i = none) (hk : g k = some v) :
    ∀ (fuel start : ℕ), start ≤ k → k < start + fuel →
      firstSome g start fuel = some v := by
  intro fuel
  induction fuel with
  | zero => intro start _ h2; omega
  | succ m ih =>
    intro start h1 h2
    by_cases hs : start = k
    · subst hs
      unfold firstSome
      rw [hk]
    · have hlt : start < k := by omega
      unfold firstSome
      rw [h0 start hlt]
      exact ih (start + 1) (by omega) (by omega)

theorem firstSome_none {β : Type} (g : ℕ → Option β)
    (h0 : ∀ i, g i = none) :
    ∀ (fuel start : ℕ), firstSome g start fuel = none := by
  intro fuel
  induction fuel with
  | zero => intro start; rfl
  | succ m ih =>
    intro start
    unfold firstSome
    rw [h0 start]
    exact ih (start + 1)

theorem flatMap_all_nil {α β : Type} (l : List α) (f : α → List β)
    (h : ∀ x ∈ l, f x = []) : l.flatMap f = [] :=
  List.flatMap_eq_nil_iff.mpr h

/-- Every separator candidate drops a non-empty prefix made of
punctuation and whitespace only. -/
theorem sepCands_shape {l y : List Char} (h : y ∈ sepCands l) :
    ∃ j, 1 ≤ j ∧ y = l.drop j ∧
      ∀ c ∈ l.take j, isPunctC c = true ∨ isPyWS c = true := by
  unfold sepCands at h
  rcases List.mem_append.mp h with h1 | h1
  · obtain ⟨i, hi2, he⟩ := List.mem_flatMap.mp h1
    have hip := List.mem_range.mp hi2
    set k := countWhile isPunctC l - i with hk
    have hk1 : 1 ≤ k := by omega
    have hkp : k ≤ countWhile isPunctC l := by omega
    obtain ⟨j, hj0, hj1, hj2⟩ := mem_sufsDesc he
    refine ⟨k + j, by omega, ?_, ?_⟩
    · rw [hj2, List.drop_drop]
    · intro c hc
      by_cases hck : c ∈ l.take k ∨ c ∈ (l.drop k).take j
      · rcases hck with h2 | h2
        · exact Or.inl (take_countWhile_all l k hkp c h2)
        · exact Or.inr (take_countWhile_all (l.drop k) j hj1 c h2)
      · exfalso
        apply hck
        have : l.take (k + j) = l.take k ++ (l.drop k).take j := by
          rw [List.take_add]
        rw [this] at hc
        exact List.mem_append.mp hc
  · obtain ⟨j, hj0, hj1, hj2⟩ := mem_sufsDesc h1
    exact ⟨j, hj0, hj2,
      fun c hc => Or.inr (take_countWhile_all l j hj1 c hc)⟩

theorem toNat_ofNat_valid (n : ℕ) (h : n < 55296) :
    (Char.ofNat n).toNat = n := by
  unfold Char.ofNat
  rw [dif_pos]
  case hc => left; omega
  show (UInt32.ofNat' n _).toNat = n
  simp [UInt32.ofNat', UInt32.toNat, BitVec.toNat_ofNatLt]

theorem isPyWS_false_of_ge (d : Char) (h : 65 ≤ d.toNat) :
    isPyWS d = false := by
  have hne : ∀ w : Char, w.toNat < 65 → (d == w) = false := by
    intro w hw
    rw [beq_eq_false_iff_ne]
    intro he
    rw [he] at h
    omega
  unfold isPyWS
  rw [hne ' ' (by decide), hne '\t' (by decide), hne '\n' (by decide),
    hne '\r' (by decide), hne '\x0b' (by decide), hne '\x0c' (by decide)]
  rfl

theorem isPyWS_toLower (c : Char) : isPyWS c.toLower = isPyWS c := by
  unfold Char.toLower
  dsimp only
  split
  case isTrue h =>
    have hres : (Char.ofNat (c.toNat + 32)).toNat = c.toNat + 32 :=
      toNat_ofNat_valid _ (by omega)
    rw [isPyWS_false_of_ge _ (by omega),
      isPyWS_false_of_ge c (by omega)]
  case isFalse h => rfl

theorem strippedOK_head (l : List Char) (h : StrippedOK l) :
    l = [] ∨ ∃ c t, l = c :: t ∧ isPyWS c = false := by
  have := dropWhile_head_not isPyWS l
  rw [h.1] at this
  exact this

theorem strippedOK_last (l : List Char) (h : StrippedOK l) :
    ∀ c, l.getLast? = some c → isPyWS c = false := by
  intro c hc
  have h2 := dropWhile_head_not isPyWS l.reverse
  rw [h.2] at h2
  rcases h2 with h3 | ⟨d, t, h3, h4⟩
  · rw [List.reverse_eq_nil_iff.mp h3] at hc
    simp at hc
  · have hgl : l.getLast? = some d := by
      rw [← List.head?_reverse, h3]
      rfl
    rw [hgl] at hc
    injection hc with hcd
    rw [← hcd]
    exact h4

theorem matchHere_cons_none (c : Cmd) (cs : List Cmd) (l : List Char)
    (pos : ℕ) (h : tryCmd c l pos = none) :
    matchHere (c :: cs) l pos = matchHere cs l pos := by
  unfold matchHere
  exact List.findSome?_cons_of_isNone cs (by simp [h])

theorem matchHere_cons_some (c : Cmd) (cs : List Cmd) (l : List Char)
    (pos : ℕ) (f : Found) (h : tryCmd c l pos = some f) :
    matchHere (c :: cs) l pos = some f := by
  unfold matchHere
  rw [List.findSome?_cons_of_isSome cs (by simp [h])]
  exact h

theorem findSome?_cons_eq_some {α β : Type} (f : α → Option β) (a : α)
    (l : List α) (v : β) (h : f a = some v) :
    (a :: l).findSome? f = some v := by
  rw [List.findSome?_cons_of_isSome l (by simp [h])]
  exact h

theorem trigCands_cons_not_o (c : Char) (l : List Char)
    (h : c.toLower ≠ 'o') : trigCands (c :: l) = [] := by
  apply trigCands_eq_nil
  intro w hw hp
  have hsh : ∀ w2 ∈ trigWords, w2.head? = some 'o' := by decide
  have hh := hsh w hw
  cases w with
  | nil => simp at hh
  | cons a t =>
    have ha : a = 'o' := by
      simp only [List.head?_cons, Option.some.injEq] at hh
      exact hh
    have hlow : lowerL (c :: l) = c.toLower :: lowerL l := rfl
    rw [hlow] at hp
    have := (List.cons_prefix_cons.mp hp).1
    rw [ha] at this
    exact h this.symm

theorem sep_char_toLower_ne_o (c : Char)
    (h : isPunctC c = true ∨ isPyWS c = true) : c.toLower ≠ 'o' := by
  have hc : c = '.' ∨ c = ',' ∨ c = '!' ∨ c = '?' ∨ c = ' ' ∨ c = '\t' ∨
      c = '\n' ∨ c = '\r' ∨ c = '\x0b' ∨ c = '\x0c' := by
    rcases h with h | h
    · unfold isPunctC at h
      simp only [Bool.or_eq_true, beq_iff_eq] at h
      tauto
    · unfold isPyWS at h
      simp only [Bool.or_eq_true, beq_iff_eq] at h
      tauto
  rcases hc with h | h | h | h | h | h | h | h | h | h <;> subst h <;> decide

theorem ws_not_punct (c : Char) (h : isPyWS c = true) : isPunctC c = false := by
  have hc : c = ' ' ∨ c = '\t' ∨ c = '\n' ∨ c = '\r' ∨ c = '\x0b' ∨
      c = '\x0c' := by
    unfold isPyWS at h
    simp only [Bool.or_eq_true, beq_iff_eq] at h
    tauto
  rcases hc with h | h | h | h | h | h <;> subst h <;> decide

theorem trigCands_sep_head (c : Char) (l : List Char)
    (h : isPunctC c = true ∨ isPyWS c = true) : trigCands (c :: l) = [] :=
  trigCands_cons_not_o c l (sep_char_toLower_ne_o c h)

theorem closeCands_eq_nil (l : List Char)
    (h : ∀ y ∈ sepCands l, trigCands y = []) : closeCands l = [] := by
  unfold closeCands chainCands
  simp only [List.foldl_cons, List.foldl_nil]
  rw [show ([l] : List (List Char)).flatMap sepCands = sepCands l from by simp]
  rw [flatMap_all_nil _ _ h]
  simp

theorem occursB_false_of_suffix (w l s : List Char)
    (h : occursB w l = false) (hs : s <:+ l) : occursB w s = false := by
  rw [occursB, List.any_eq_false]
  intro i _
  intro hp
  exact occursB_false_suffix w l h (s.drop i)
    ((List.drop_suffix i s).trans hs) ((List.isPrefixOf_iff_prefix).mp hp)

theorem trigCands_ne_nil_ex (l : List Char) (h : trigCands l ≠ []) :
    ∃ w ∈ trigWords, w <+: lowerL l := by
  by_contra hno
  push_neg at hno
  exact h (trigCands_eq_nil l hno)

theorem mem_of_prefix_append_long (ch : Char) (z : List Char)
    (x w : List Char) (hp : w <+: x ++ ch :: z) (hl : x.length < w.length) :
    ch ∈ w := by
  induction x generalizing w with
  | nil =>
    cases w with
    | nil => simp at hl
    | cons a t =>
      have h1 := (List.cons_prefix_cons.mp (by simpa using hp)).1
      rw [h1]
      exact List.mem_cons_self _ _
  | cons c xs ih =>
    cases w with
    | nil => simp at hl
    | cons a t =>
      have hpc := List.cons_prefix_cons.mp (by simpa using hp)
      exact List.mem_cons_of_mem a (ih t hpc.2 (by simpa using hl))

theorem prefix_of_prefix_append (w x y : List Char) (hp : w <+: x ++ y)
    (hl : w.length ≤ x.length) : w <+: x := by
  have h1 : w = (x ++ y).take w.length := List.prefix_iff_eq_take.mp hp
  rw [List.take_append_of_le_length hl] at h1
  exact List.prefix_iff_eq_take.mpr h1

theorem trigCands_drop_append_ws (B D : List Char) (m : ℕ)
    (htr : ∀ w ∈ trigWords, occursB w B = false) :
    trigCands (B.drop m ++ (' ' :: D)) = [] := by
  cases hd : B.drop m with
  | nil =>
    rw [List.nil_append]
    exact trigCands_sep_head ' ' D (Or.inr (by decide))
  | cons c tl =>
    rw [← hd]
    by_contra hne
    obtain ⟨w, hw, hp⟩ := trigCands_ne_nil_ex _ hne
    have hlow : lowerL (B.drop m ++ ' ' :: D)
        = lowerL (B.drop m) ++ ' ' :: lowerL D := by
      simp only [lowerL, List.map_append, List.map_cons]
      rfl
    rw [hlow] at hp
    by_cases hlen : w.length ≤ (lowerL (B.drop m)).length
    · have hpre : w <+: lowerL (B.drop m) :=
        prefix_of_prefix_append _ _ _ hp hlen
      exact occursB_false_suffix w B (htr w hw) (B.drop m)
        (List.drop_suffix m B) hpre
    · have hmem : ' ' ∈ w :=
        mem_of_prefix_append_long ' ' (lowerL D) (lowerL (B.drop m)) w hp
          (by omega)
      have hns : ∀ w2 ∈ trigWords, ' ' ∉ w2 := by decide
      exact hns w hw hmem

theorem getLast?_of_suffix {a l : List Char} (h : a <:+ l) (ha : a ≠ []) :
    a.getLast? = l.getLast? := by
  obtain ⟨u, hu⟩ := h
  rw [← hu, List.getLast?_append]
  cases hq : a.getLast? with
  | none => exact absurd (List.getLast?_eq_none_iff.mp hq) ha
  | some x => rfl

theorem mem_of_getLast?_eq (l : List Char) (c : Char)
    (h : l.getLast? = some c) : c ∈ l := by
  have hne : l ≠ [] := by
    intro he
    rw [he] at h
    simp at h
  rw [List.getLast?_eq_getLast l hne] at h
  injection h with h2
  rw [← h2]
  exact List.getLast_mem hne

/-- No close can begin strictly inside the stripped content: any separator
candidate either leaves a trigger-free tail (so the trigger part of the
close fails) or would have to swallow the last character of the stripped
content, which is neither punctuation nor whitespace. -/
theorem closeCands_before_core (core w2 D : List Char) (n : ℕ)
    (hn : n < core.length)
    (hst : StrippedOK core)
    (hpu : ∀ c, core.getLast? = some c → isPunctC c = false)
    (htr : ∀ w ∈ trigWords, occursB w (core ++ w2) = false) :
    closeCands ((core ++ w2).drop n ++ (' ' :: D)) = [] := by
  apply closeCands_eq_nil
  intro y hy
  obtain ⟨j, hj1, hy2, hprop⟩ := sepCands_shape hy
  by_cases hjA : j ≤ ((core ++ w2).drop n).length
  · rw [hy2, List.drop_append_of_le_length hjA, List.drop_drop]
    exact trigCands_drop_append_ws (core ++ w2) D (n + j) htr
  · exfalso
    have hcne : core ≠ [] := by
      intro he
      rw [he] at hn
      simp at hn
    obtain ⟨cstar, hcs⟩ : ∃ c, core.getLast? = some c := by
      cases hq : core.getLast? with
      | none => exact absurd (List.getLast?_eq_none_iff.mp hq) hcne
      | some c => exact ⟨c, rfl⟩
    have hdne : core.drop n ≠ [] := by
      intro he
      have := List.drop_eq_nil_iff.mp he
      omega
    have hlast2 : (core.drop n).getLast? = some cstar := by
      rw [getLast?_of_suffix (List.drop_suffix n core) hdne]
      exact hcs
    have hmem1 : cstar ∈ core.drop n := mem_of_getLast?_eq _ _ hlast2
    have hmemB : cstar ∈ (core ++ w2).drop n := by
      rw [List.drop_append_of_le_length (by omega)]
      exact List.mem_append_left w2 hmem1
    have hmem2 : cstar ∈ ((core ++ w2).drop n ++ (' ' :: D)).take j := by
      rw [List.take_append_eq_append_take,
        List.take_of_length_le (by omega)]
      exact List.mem_append_left _ hmemB
    rcases hprop cstar hmem2 with hpn | hws
    · rw [hpu cstar hcs] at hpn
      exact absurd hpn (by simp)
    · rw [strippedOK_last core hst cstar hcs] at hws
      exact absurd hws (by simp)

/-- At the end of the stripped content the close succeeds, consuming the
trailing whitespace, the space, and the whole okay done tail. -/
theorem closeCands_at_core (w2 : List Char)
    (hw2 : ∀ c ∈ w2, isPyWS c = true) :
    closeCands (w2 ++ (' ' :: "okay done".data)) = [[]] := by
  have hpz : countWhile isPunctC (w2 ++ (' ' :: "okay done".data)) = 0 := by
    cases hw : w2 with
    | nil => decide
    | cons c t =>
      rw [List.cons_append]
      exact countWhile_cons_neg _
        (ws_not_punct c (hw2 c (by rw [hw]; simp)))
  have hwz : countWhile isPyWS (w2 ++ (' ' :: "okay done".data))
      = w2.length + 1 := by
    rw [countWhile_append_all w2 _ hw2,
      show countWhile isPyWS (' ' :: "okay done".data) = 1 from by decide]
  have hZdrop : (w2 ++ (' ' :: "okay done".data)).drop (w2.length + 1)
      = "okay done".data := by
    rw [List.drop_append]
    rfl
  have ha1 : sepCands (w2 ++ (' ' :: "okay done".data))
      = "okay done".data
        :: sufsDesc (w2 ++ (' ' :: "okay done".data)) w2.length 1 := by
    unfold sepCands
    rw [hpz]
    simp only [List.range_zero, List.flatMap_nil, List.nil_append]
    rw [hwz, sufsDesc_cons _ w2.length 1 (by omega), hZdrop]
  have htail : ∀ y ∈ sufsDesc (w2 ++ (' ' :: "okay done".data)) w2.length 1,
      trigCands y = [] := by
    intro y hy
    obtain ⟨j, hj1, hj2, hy2⟩ := mem_sufsDesc hy
    rw [hy2, List.drop_append_of_le_length (by omega)]
    cases hw : w2.drop j with
    | nil =>
      rw [List.nil_append]
      exact trigCands_sep_head ' ' _ (Or.inr (by decide))
    | cons c t =>
      rw [List.cons_append]
      refine trigCands_sep_head c _ (Or.inr (hw2 c ?_))
      exact List.drop_subset j w2 (by rw [hw]; simp)
  unfold closeCands chainCands
  simp only [List.foldl_cons, List.foldl_nil]
  rw [show ([w2 ++ (' ' :: "okay done".data)] : List (List Char)).flatMap
      sepCands = sepCands (w2 ++ (' ' :: "okay done".data)) from by simp]
  rw [ha1, List.flatMap_cons,
    show trigCands ("okay done".data) = [" done".data, "ay done".data]
      from by decide,
    flatMap_all_nil _ _ htail, List.append_nil]
  decide

theorem strippedOK_lowerL (l : List Char) (h : StrippedOK l) :
    StrippedOK (lowerL l) := by
  constructor
  · rcases strippedOK_head l h with h1 | ⟨c, t, h1, h2⟩
    · rw [h1]
      rfl
    · rw [h1]
      show (Char.toLower c :: lowerL t).dropWhile isPyWS
          = Char.toLower c :: lowerL t
      rw [List.dropWhile_cons_of_neg (by rw [isPyWS_toLower]; simp [h2])]
  · have hrev : (lowerL l).reverse = lowerL l.reverse := by
      unfold lowerL
      rw [← List.map_reverse]
    rw [hrev]
    have h2 := dropWhile_head_not isPyWS l.reverse
    rw [h.2] at h2
    rcases h2 with h3 | ⟨c, t, h3, h4⟩
    · rw [h3]
      rfl
    · rw [h3]
      show (Char.toLower c :: lowerL t).dropWhile isPyWS
          = Char.toLower c :: lowerL t
      rw [List.dropWhile_cons_of_neg (by rw [isPyWS_toLower]; simp [h4])]

theorem lowerL_ne_nil (l : List Char) (h : l ≠ []) : lowerL l ≠ [] := by
  unfold lowerL
  simpa using h

theorem allws_of_pyStrip_nil (s2 : List Char) (h : pyStrip s2 = []) :
    ∀ c ∈ s2, isPyWS c = true := by
  intro c hc
  have hsplit := (List.takeWhile_append_dropWhile (p := isPyWS) (l := s2)).symm
  have hB := reverse_dropWhile_reverse_decomp isPyWS (s2.dropWhile isPyWS)
  rw [show ((s2.dropWhile isPyWS).reverse.dropWhile isPyWS).reverse
      = pyStrip s2 from rfl, h, List.nil_append] at hB
  rw [hB] at hsplit
  rw [hsplit] at hc
  rcases List.mem_append.mp hc with h1 | h1
  · exact List.mem_takeWhile_imp h1
  · exact List.mem_takeWhile_imp (List.mem_reverse.mp h1)

/-- On the raw-text string the trigger, separator and empty filler leave
exactly one candidate, the suffix starting at raw. -/
theorem chain_after_filler (fr : List (List Char → List (List Char)))
    (s2 : List Char) :
    chainCands ([trigCands, sepCands, fillerCands] ++ fr)
      ("okay raw text ".data ++ (s2 ++ (' ' :: "okay done".data)))
      = fr.foldl (fun acc f => acc.flatMap f)
          ["raw text ".data ++ (s2 ++ (' ' :: "okay done".data))] := by
  unfold chainCands
  rw [List.foldl_append]
  have hin : List.foldl (fun acc f => acc.flatMap f)
      ["okay raw text ".data ++ (s2 ++ (' ' :: "okay done".data))]
      [trigCands, sepCands, fillerCands]
      = ["raw text ".data ++ (s2 ++ (' ' :: "okay done".data))] := by
    simp only [List.foldl_cons, List.foldl_nil]
    rw [show (["okay raw text ".data
          ++ (s2 ++ (' ' :: "okay done".data))].flatMap trigCands)
        = [" raw text ".data ++ (s2 ++ (' ' :: "okay done".data)),
           "ay raw text ".data ++ (s2 ++ (' ' :: "okay done".data))] from rfl]
    rw [show ([" raw text ".data ++ (s2 ++ (' ' :: "okay done".data)),
          "ay raw text ".data ++ (s2 ++ (' ' :: "okay done".data))].flatMap
            sepCands)
        = ["raw text ".data ++ (s2 ++ (' ' :: "okay done".data))] from rfl]
    rw [show (["raw text ".data
          ++ (s2 ++ (' ' :: "okay done".data))].flatMap fillerCands)
        = ["raw text ".data ++ (s2 ++ (' ' :: "okay done".data))] from rfl]
  rw [hin]

/-- An action word that does not start with r kills the whole candidate
chain on the raw-text string. -/
theorem chain_dead_action (w1 : List Char)
    (fr : List (List Char → List (List Char))) (s2 : List Char)
    (hw : litC w1 ("raw text ".data ++ (s2 ++ (' ' :: "okay done".data)))
      = []) :
    chainCands ([trigCands, sepCands, fillerCands] ++ (litC w1 :: fr))
      ("okay raw text ".data ++ (s2 ++ (' ' :: "okay done".data))) = [] := by
  rw [chain_after_filler (litC w1 :: fr) s2]
  simp only [List.foldl_cons]
  rw [List.flatMap_cons, hw, List.flatMap_nil, List.nil_append]
  exact foldl_flatMap_nil fr

/-- The prefix part of the combined pattern for raw text: the trigger okay,
one separator space, no filler, then raw SEP text, leaving the space before
the content. -/
theorem prefixCands_rawtext (s2 : List Char) :
    prefixCands (mkCmd "raw text" true true SubH.noSub CSubH.rawCSub false)
      ("okay raw text ".data ++ (s2 ++ (' ' :: "okay done".data)))
      = [' ' :: (s2 ++ (' ' :: "okay done".data))] := by
  unfold prefixCands
  rw [show actionElems (splitWS ((mkCmd "raw text" true true SubH.noSub
        CSubH.rawCSub false).trigger.data))
      = [litC ("raw".data), sepCands, litC ("text".data)] from rfl]
  rw [chain_after_filler [litC ("raw".data), sepCands, litC ("text".data)] s2]
  simp only [List.foldl_cons, List.foldl_nil]
  rw [show (["raw text ".data
        ++ (s2 ++ (' ' :: "okay done".data))].flatMap (litC ("raw".data)))
      = [" text ".data ++ (s2 ++ (' ' :: "okay done".data))] from rfl]
  rw [show ([" text ".data
        ++ (s2 ++ (' ' :: "okay done".data))].flatMap sepCands)
      = ["text ".data ++ (s2 ++ (' ' :: "okay done".data))] from rfl]
  rw [show (["text ".data
        ++ (s2 ++ (' ' :: "okay done".data))].flatMap (litC ("text".data)))
      = [' ' :: (s2 ++ (' ' :: "okay done".data))] from rfl]

/-- A command whose pattern requires an action word other than raw cannot
match at the start of the raw-text string. -/
theorem tryCmd_none_of_prefixCands_nil (cmd : Cmd) (l : List Char) (pos : ℕ)
    (h : prefixCands cmd l = []) : tryCmd cmd l pos = none := by
  unfold tryCmd
  by_cases hre : cmd.requiresEnd = true
  · rw [if_pos hre]
    have hb : bracketedM cmd l = none := by
      unfold bracketedM
      rw [h]
      rfl
    rw [hb]
  · rw [if_neg hre]
    have hi : instM cmd l = none := by
      unfold instM
      rw [h]
      rfl
    rw [hi]

/-- The non-greedy content search stops exactly at the end of the stripped
content. -/
theorem contentAt_core (core w2 : List Char)
    (hst : StrippedOK core)
    (hpu : ∀ c, core.getLast? = some c → isPunctC c = false)
    (hw2 : ∀ c ∈ w2, isPyWS c = true)
    (htr : ∀ w ∈ trigWords, occursB w (core ++ w2) = false)
    (hnl : ∀ c ∈ core ++ w2, c ≠ '\n') :
    contentAt ((core ++ w2) ++ (' ' :: "okay done".data))
      = some (some core, []) := by
  unfold contentAt
  have hall : ∀ c ∈ (core ++ w2) ++ (' ' :: "okay done".data), c ≠ '\n' := by
    intro c hc
    rcases List.mem_append.mp hc with h1 | h1
    · exact hnl c h1
    · have hD : ∀ x ∈ (' ' :: "okay done".data), x ≠ '\n' := by decide
      exact hD c h1
  have hlim : countWhile (fun c => decide (c ≠ '\n'))
      ((core ++ w2) ++ (' ' :: "okay done".data))
      = ((core ++ w2) ++ (' ' :: "okay done".data)).length :=
    countWhile_all _ (fun c hc => decide_eq_true (hall c hc))
  show firstSome (fun n =>
      (closeCands ((((core ++ w2) ++ (' ' :: "okay done".data))).drop n)).head?.map
        (fun r => (some ((((core ++ w2) ++ (' ' :: "okay done".data))).take n), r)))
      0 (countWhile (fun c => decide (c ≠ '\n'))
          ((core ++ w2) ++ (' ' :: "okay done".data)) + 1)
      = some (some core, [])
  rw [hlim]
  have h0 : ∀ i, i < core.length →
      (closeCands ((((core ++ w2) ++ (' ' :: "okay done".data))).drop i)).head?.map
        (fun r => (some ((((core ++ w2) ++ (' ' :: "okay done".data))).take i), r))
      = none := by
    intro i hi
    have hdrop : (((core ++ w2) ++ (' ' :: "okay done".data))).drop i
        = (core ++ w2).drop i ++ (' ' :: "okay done".data) :=
      List.drop_append_of_le_length (by rw [List.length_append]; omega)
    rw [hdrop, closeCands_before_core core w2 _ i hi hst hpu htr]
    rfl
  have hk : (closeCands ((((core ++ w2) ++ (' ' :: "okay done".data))).drop
        core.length)).head?.map
      (fun r => (some ((((core ++ w2) ++ (' ' :: "okay done".data))).take
        core.length), r))
      = some (some core, []) := by
    have hd : (((core ++ w2) ++ (' ' :: "okay done".data))).drop core.length
        = w2 ++ (' ' :: "okay done".data) := by
      rw [List.append_assoc]
      exact List.drop_left' rfl
    have ht : (((core ++ w2) ++ (' ' :: "okay done".data))).take core.length
        = core := by
      rw [List.append_assoc]
      exact List.take_left' rfl
    rw [hd, ht, closeCands_at_core w2 hw2]
    rfl
  exact firstSome_spec _ core.length (some core, []) h0 hk _ 0 (by omega)
    (by rw [List.length_append, List.length_append]; omega)

/-- The separator after the prefix space eats the leading whitespace of the
content, and the content group then matches exactly the stripped text. -/
theorem tryPrefix_core (w1 core w2 : List Char)
    (hw1 : ∀ c ∈ w1, isPyWS c = true)
    (hst : StrippedOK core)
    (hpu : ∀ c, core.getLast? = some c → isPunctC c = false)
    (hw2 : ∀ c ∈ w2, isPyWS c = true)
    (htr : ∀ w ∈ trigWords, occursB w (core ++ w2) = false)
    (hnl : ∀ c ∈ core ++ w2, c ≠ '\n')
    (hcne : core ≠ []) :
    tryPrefix (' ' :: ((w1 ++ (core ++ w2)) ++ (' ' :: "okay done".data)))
      = some (some core, []) := by
  obtain ⟨c0, t0, hc0, hc0w⟩ : ∃ c0 t0, core = c0 :: t0 ∧ isPyWS c0 = false := by
    rcases strippedOK_head core hst with h | ⟨c0, t0, h1, h2⟩
    · exact absurd h hcne
    · exact ⟨c0, t0, h1, h2⟩
  have hcw0 : countWhile isPyWS ((core ++ w2) ++ (' ' :: "okay done".data))
      = 0 := by
    rw [hc0, List.cons_append, List.cons_append]
    exact countWhile_cons_neg _ hc0w
  have hws : countWhile isPyWS
      (' ' :: ((w1 ++ (core ++ w2)) ++ (' ' :: "okay done".data)))
      = w1.length + 1 := by
    rw [countWhile_cons_pos _ (by decide), List.append_assoc,
      countWhile_append_all w1 _ hw1, hcw0]
  have hdropR : (' ' :: ((w1 ++ (core ++ w2))
        ++ (' ' :: "okay done".data))).drop (w1.length + 1)
      = (core ++ w2) ++ (' ' :: "okay done".data) := by
    rw [List.drop_succ_cons, List.append_assoc, List.drop_left' rfl]
  have hsep : sepCands (' ' :: ((w1 ++ (core ++ w2))
        ++ (' ' :: "okay done".data)))
      = ((core ++ w2) ++ (' ' :: "okay done".data))
        :: sufsDesc (' ' :: ((w1 ++ (core ++ w2))
            ++ (' ' :: "okay done".data))) w1.length 1 := by
    unfold sepCands
    rw [countWhile_cons_neg _ (show isPunctC ' ' = false from by decide)]
    simp only [List.range_zero, List.flatMap_nil, List.nil_append]
    rw [hws, sufsDesc_cons _ w1.length 1 (by omega), hdropR]
  unfold tryPrefix
  rw [hsep, findSome?_cons_eq_some _ _ _ _
    (contentAt_core core w2 hst hpu hw2 htr hnl)]

/-- When the content is pure whitespace the optional content group still
participates: the separator leaves the okay done tail in two ways, the
first (longest) candidate has no trigger, and the second matches with an
empty content. -/
theorem tryPrefix_allws (s2 : List Char)
    (hws : ∀ c ∈ s2, isPyWS c = true) :
    tryPrefix (' ' :: (s2 ++ (' ' :: "okay done".data)))
      = some (some [], []) := by
  have hwsr : countWhile isPyWS (' ' :: (s2 ++ (' ' :: "okay done".data)))
      = s2.length + 1 + 1 := by
    rw [countWhile_cons_pos _ (by decide),
      countWhile_append_all s2 _ hws,
      show countWhile isPyWS (' ' :: "okay done".data) = 1 from by decide]
  have hd2 : (' ' :: (s2 ++ (' ' :: "okay done".data))).drop
        (s2.length + 1 + 1) = "okay done".data := by
    rw [List.drop_succ_cons, List.drop_append]
    rfl
  have hd1 : (' ' :: (s2 ++ (' ' :: "okay done".data))).drop
        (s2.length + 1) = ' ' :: "okay done".data := by
    rw [List.drop_succ_cons, List.drop_left' rfl]
  have hsep : sepCands (' ' :: (s2 ++ (' ' :: "okay done".data)))
      = "okay done".data :: (' ' :: "okay done".data)
        :: sufsDesc (' ' :: (s2 ++ (' ' :: "okay done".data))) s2.length 1 := by
    unfold sepCands
    rw [countWhile_cons_neg _ (show isPunctC ' ' = false from by decide)]
    simp only [List.range_zero, List.flatMap_nil, List.nil_append]
    rw [hwsr, sufsDesc_cons _ (s2.length + 1) 1 (by omega), hd2,
      sufsDesc_cons _ s2.length 1 (by omega), hd1]
  unfold tryPrefix
  rw [hsep, List.findSome?_cons_of_isNone _
      (show (contentAt ("okay done".data)).isNone from by decide),
    findSome?_cons_eq_some _ _ _ _
      (show contentAt (' ' :: "okay done".data) = some (some [], [])
        from by decide)]

/-- The block-command match of raw text on the bracketed string: the
content group returns the stripped inner text and nothing is left over. -/
theorem bracketedM_rawtext (s2 : List Char)
    (hnl : ∀ c ∈ s2, c ≠ '\n')
    (htr : ∀ w ∈ trigWords, occursB w s2 = false)
    (hpu : ∀ c, (pyStrip s2).getLast? = some c → isPunctC c = false) :
    bracketedM (mkCmd "raw text" true true SubH.noSub CSubH.rawCSub false)
      ("okay raw text ".data ++ (s2 ++ (' ' :: "okay done".data)))
      = some (some (pyStrip s2), []) := by
  by_cases hcore : pyStrip s2 = []
  · rw [hcore]
    unfold bracketedM
    rw [prefixCands_rawtext s2]
    exact findSome?_cons_eq_some _ _ _ _
      (tryPrefix_allws s2 (allws_of_pyStrip_nil s2 hcore))
  · have hB : s2.dropWhile isPyWS
        = pyStrip s2 ++ ((s2.dropWhile isPyWS).reverse.takeWhile isPyWS).reverse :=
      reverse_dropWhile_reverse_decomp isPyWS (s2.dropWhile isPyWS)
    have hsplit : s2 = s2.takeWhile isPyWS
        ++ (pyStrip s2
            ++ ((s2.dropWhile isPyWS).reverse.takeWhile isPyWS).reverse) := by
      conv_lhs => rw [← List.takeWhile_append_dropWhile (p := isPyWS) (l := s2)]
      rw [← hB]
    have hw1 : ∀ c ∈ s2.takeWhile isPyWS, isPyWS c = true :=
      fun c hc => List.mem_takeWhile_imp hc
    have hw2 : ∀ c ∈ ((s2.dropWhile isPyWS).reverse.takeWhile isPyWS).reverse,
        isPyWS c = true :=
      fun c hc => List.mem_takeWhile_imp (List.mem_reverse.mp hc)
    have htr2 : ∀ w ∈ trigWords, occursB w
        (pyStrip s2
          ++ ((s2.dropWhile isPyWS).reverse.takeWhile isPyWS).reverse)
        = false := by
      intro w hw
      rw [← hB]
      exact occursB_false_of_suffix w s2 _ (htr w hw)
        (List.dropWhile_suffix isPyWS)
    have hnl2 : ∀ c ∈ pyStrip s2
        ++ ((s2.dropWhile isPyWS).reverse.takeWhile isPyWS).reverse,
        c ≠ '\n' := by
      intro c hc
      rw [← hB] at hc
      exact hnl c ((List.dropWhile_sublist isPyWS).subset hc)
    conv_lhs => rw [hsplit]
    unfold bracketedM
    rw [prefixCands_rawtext]
    exact findSome?_cons_eq_some _ _ _ _
      (tryPrefix_core _ _ _ hw1 (strippedOK_pyStrip s2) hpu hw2 htr2 hnl2 hcore)

/-- The raw text alternative matches the whole bracketed string. -/
theorem tryCmd_rawtext (s2 : List Char)
    (hnl : ∀ c ∈ s2, c ≠ '\n')
    (htr : ∀ w ∈ trigWords, occursB w s2 = false)
    (hpu : ∀ c, (pyStrip s2).getLast? = some c → isPunctC c = false) :
    tryCmd (mkCmd "raw text" true true SubH.noSub CSubH.rawCSub false)
      ("okay raw text ".data ++ (s2 ++ (' ' :: "okay done".data))) 0
      = some { cmd := mkCmd "raw text" true true SubH.noSub CSubH.rawCSub false,
               startP := 0,
               endP := ("okay raw text ".data
                 ++ (s2 ++ (' ' :: "okay done".data))).length,
               full := "okay raw text ".data
                 ++ (s2 ++ (' ' :: "okay done".data)),
               contentQ := some (pyStrip s2) } := by
  unfold tryCmd
  rw [if_pos (show (mkCmd "raw text" true true SubH.noSub CSubH.rawCSub
      false).requiresEnd = true from rfl)]
  rw [bracketedM_rawtext s2 hnl htr hpu]
  simp [List.take_length]

/-- The combined alternation matches raw text at position 0: the six
longer-trigger alternatives all fail on this string. -/
theorem matchHere_rawtext (s2 : List Char)
    (hnl : ∀ c ∈ s2, c ≠ '\n')
    (htr : ∀ w ∈ trigWords, occursB w s2 = false)
    (hpu : ∀ c, (pyStrip s2).getLast? = some c → isPunctC c = false) :
    matchHere scanCmds
      ("okay raw text ".data ++ (s2 ++ (' ' :: "okay done".data))) 0
      = some { cmd := mkCmd "raw text" true true SubH.noSub CSubH.rawCSub false,
               startP := 0,
               endP := ("okay raw text ".data
                 ++ (s2 ++ (' ' :: "okay done".data))).length,
               full := "okay raw text ".data
                 ++ (s2 ++ (' ' :: "okay done".data)),
               contentQ := some (pyStrip s2) } := by
  have hsc : scanCmds =
      mkCmd "command prompt" false false SubH.noSub CSubH.noCSub true ::
      mkCmd "select all" false false SubH.noSub CSubH.noCSub true ::
      mkCmd "new window" false false SubH.noSub CSubH.noCSub true ::
      mkCmd "backspace" false false SubH.noSub CSubH.noCSub true ::
      mkCmd "press tab" false false SubH.noSub CSubH.noCSub true ::
      mkCmd "new line" false false SubH.noSub CSubH.noCSub true ::
      mkCmd "raw text" true true SubH.noSub CSubH.rawCSub false ::
      List.drop 7 scanCmds := by decide
  have hd1 : tryCmd (mkCmd "command prompt" false false SubH.noSub
      CSubH.noCSub true)
      ("okay raw text ".data ++ (s2 ++ (' ' :: "okay done".data))) 0
      = none := by
    apply tryCmd_none_of_prefixCands_nil
    unfold prefixCands
    rw [show actionElems (splitWS ((mkCmd "command prompt" false false
        SubH.noSub CSubH.noCSub true).trigger.data))
        = litC ("command".data) :: [sepCands, litC ("prompt".data)] from rfl]
    exact chain_dead_action _ _ s2 rfl
  have hd2 : tryCmd (mkCmd "select all" false false SubH.noSub
      CSubH.noCSub true)
      ("okay raw text ".data ++ (s2 ++ (' ' :: "okay done".data))) 0
      = none := by
    apply tryCmd_none_of_prefixCands_nil
    unfold prefixCands
    rw [show actionElems (splitWS ((mkCmd "select all" false false
        SubH.noSub CSubH.noCSub true).trigger.data))
        = litC ("select".data) :: [sepCands, litC ("all".data)] from rfl]
    exact chain_dead_action _ _ s2 rfl
  have hd3 : tryCmd (mkCmd "new window" false false SubH.noSub
      CSubH.noCSub true)
      ("okay raw text ".data ++ (s2 ++ (' ' :: "okay done".data))) 0
      = none := by
    apply tryCmd_none_of_prefixCands_nil
    unfold prefixCands
    rw [show actionElems (splitWS ((mkCmd "new window" false false
        SubH.noSub CSubH.noCSub true).trigger.data))
        = litC ("new".data) :: [sepCands, litC ("window".data)] from rfl]
    exact chain_dead_action _ _ s2 rfl
  have hd4 : tryCmd (mkCmd "backspace" false false SubH.noSub
      CSubH.noCSub true)
      ("okay raw text ".data ++ (s2 ++ (' ' :: "okay done".data))) 0
      = none := by
    apply tryCmd_none_of_prefixCands_nil
    unfold prefixCands
    rw [show actionElems (splitWS ((mkCmd "backspace" false false
        SubH.noSub CSubH.noCSub true).trigger.data))
        = litC ("backspace".data) :: [] from rfl]
    exact chain_dead_action _ _ s2 rfl
  have hd5 : tryCmd (mkCmd "press tab" false false SubH.noSub
      CSubH.noCSub true)
      ("okay raw text ".data ++ (s2 ++ (' ' :: "okay done".data))) 0
      = none := by
    apply tryCmd_none_of_prefixCands_nil
    unfold prefixCands
    rw [show actionElems (splitWS ((mkCmd "press tab" false false
        SubH.noSub CSubH.noCSub true).trigger.data))
        = litC ("press".data) :: [sepCands, litC ("tab".data)] from rfl]
    exact chain_dead_action _ _ s2 rfl
  have hd6 : tryCmd (mkCmd "new line" false false SubH.noSub
      CSubH.noCSub true)
      ("okay raw text ".data ++ (s2 ++ (' ' :: "okay done".data))) 0
      = none := by
    apply tryCmd_none_of_prefixCands_nil
    unfold prefixCands
    rw [show actionElems (splitWS ((mkCmd "new line" false false
        SubH.noSub CSubH.noCSub true).trigger.data))
        = litC ("new".data) :: [sepCands, litC ("line".data)] from rfl]
    exact chain_dead_action _ _ s2 rfl
  rw [hsc, matchHere_cons_none _ _ _ _ hd1, matchHere_cons_none _ _ _ _ hd2,
    matchHere_cons_none _ _ _ _ hd3, matchHere_cons_none _ _ _ _ hd4,
    matchHere_cons_none _ _ _ _ hd5, matchHere_cons_none _ _ _ _ hd6]
  exact matchHere_cons_some _ _ _ _ _ (tryCmd_rawtext s2 hnl htr hpu)

/-- The left-to-right scan finds the raw text match at position 0 and
consumes the whole string. -/
theorem findFrom_rawtext (s2 : List Char)
    (hnl : ∀ c ∈ s2, c ≠ '\n')
    (htr : ∀ w ∈ trigWords, occursB w s2 = false)
    (hpu : ∀ c, (pyStrip s2).getLast? = some c → isPunctC c = false) :
    findFrom scanCmds
      ("okay raw text ".data ++ (s2 ++ (' ' :: "okay done".data))) 0
      = some ({ cmd := mkCmd "raw text" true true SubH.noSub CSubH.rawCSub
                  false,
                startP := 0,
                endP := ("okay raw text ".data
                  ++ (s2 ++ (' ' :: "okay done".data))).length,
                full := "okay raw text ".data
                  ++ (s2 ++ (' ' :: "okay done".data)),
                contentQ := some (pyStrip s2) }, []) := by
  rw [show "okay raw text ".data ++ (s2 ++ (' ' :: "okay done".data))
      = 'o' :: ("kay raw text ".data ++ (s2 ++ (' ' :: "okay done".data)))
      from rfl]
  unfold findFrom
  rw [show 'o' :: ("kay raw text ".data ++ (s2 ++ (' ' :: "okay done".data)))
      = "okay raw text ".data ++ (s2 ++ (' ' :: "okay done".data)) from rfl]
  rw [matchHere_rawtext s2 hnl htr hpu]
  simp [List.drop_length]

/-- finditer on the raw-text string yields exactly one match. -/
theorem findAll_rawtext (s2 : List Char)
    (hnl : ∀ c ∈ s2, c ≠ '\n')
    (htr : ∀ w ∈ trigWords, occursB w s2 = false)
    (hpu : ∀ c, (pyStrip s2).getLast? = some c → isPunctC c = false) :
    findAll scanCmds
      (("okay raw text ".data ++ (s2 ++ (' ' :: "okay done".data))).length
        + 1)
      ("okay raw text ".data ++ (s2 ++ (' ' :: "okay done".data))) 0
      = [{ cmd := mkCmd "raw text" true true SubH.noSub CSubH.rawCSub false,
           startP := 0,
           endP := ("okay raw text ".data
             ++ (s2 ++ (' ' :: "okay done".data))).length,
           full := "okay raw text ".data
             ++ (s2 ++ (' ' :: "okay done".data)),
           contentQ := some (pyStrip s2) }] := by
  unfold findAll
  rw [findFrom_rawtext s2 hnl htr hpu]
  have hnil : ∀ fuel pos, findAll scanCmds fuel [] pos = [] := fun fuel pos =>
    findAll_eq_nil scanCmds fuel [] pos
      (fun u hu => by rw [List.suffix_nil.mp hu]; rfl)
  simp [hnil]

/-- Processing the single raw text match: fresh dedup key, no nested clip
substitution, the content kept verbatim (not scanned), and one replacement
span covering the whole string with the stripped content. -/
theorem procAll_rawtext (rec : List (List Char) → List Char → ScanRes)
    (env : Env) (t core : List Char) (hst : StrippedOK core) :
    procAll rec env false
      [{ cmd := mkCmd "raw text" true true SubH.noSub CSubH.rawCSub false,
         startP := 0, endP := t.length, full := t,
         contentQ := some core }] []
      = { spans := [(0, t.length, core)], ms := [], seen := [lowerL t],
          aiCalls := [] } := by
  have hclow : pyStrip (lowerL core) = lowerL core :=
    strippedOK_id _ (strippedOK_lowerL core hst)
  have hpsc : pyStrip core = core := strippedOK_id core hst
  by_cases hcore : core = []
  · subst hcore
    simp [procAll, mkCmd, pyStrip]
  · simp [procAll, mkCmd, hclow, hpsc, lowerL_ne_nil core hcore]

/-- C4, corrected.  The spec claims: for every string s not containing the
trigger phrase, scan_text of okay raw text s okay done returns s.trim()
with the content passed through verbatim and unscanned.  As stated this is
false (see the counterexample: trailing punctuation on s is eaten by the
separator).  The corrected statement: for every transcript s that is free
of newline characters and wake-word variations and whose stripped form
does not end in a punctuation character, the scan of
okay raw text s okay done emits no matches, makes no AI calls, and cleans
the text to exactly the stripped content (run through the engine final
whitespace cleanup), the content never being scanned for commands. -/
theorem c4_raw_text_escape (env : Env) (s : String)
    (hnl : ∀ c ∈ s.data, c ≠ '\n')
    (htr : ∀ w ∈ trigWords, occursB w s.data = false)
    (hpu : ∀ c, (pyStrip s.data).getLast? = some c → isPunctC c = false) :
    (scanText env [] ("okay raw text " ++ s ++ " okay done")).cleaned
        = cleanupL (pyStrip s.data)
      ∧ (scanText env [] ("okay raw text " ++ s ++ " okay done")).ms = []
      ∧ (scanText env [] ("okay raw text " ++ s ++ " okay done")).aiCalls
          = [] := by
  have hdata : ("okay raw text " ++ s ++ " okay done").data
      = "okay raw text ".data ++ (s.data ++ (' ' :: "okay done".data)) := by
    rw [String.data_append, String.data_append, List.append_assoc]
  have htne : "okay raw text ".data ++ (s.data ++ (' ' :: "okay done".data))
      ≠ [] :=
    List.append_ne_nil_of_left_ne_nil (by decide) _
  have hmain : ∀ N : ℕ, scanL env (N + 1) []
      ("okay raw text ".data ++ (s.data ++ (' ' :: "okay done".data))) false
      = { cleaned := cleanupL (pyStrip s.data), ms := [],
          seen := [lowerL ("okay raw text ".data
            ++ (s.data ++ (' ' :: "okay done".data)))],
          aiCalls := [] } := by
    intro N
    simp only [scanL]
    rw [if_neg htne]
    rw [findAll_rawtext s.data hnl htr hpu]
    rw [procAll_rawtext _ env _ (pyStrip s.data) (strippedOK_pyStrip s.data)]
    simp [sortSpansDesc, insertSpanDesc, applySpans, List.drop_length]
    rw [List.drop_eq_nil_of_le (by
        rw [show String.length s = s.data.length from rfl]
        simp), List.append_nil]
  refine ⟨?_, ?_, ?_⟩
  · unfold scanText
    rw [hdata, hmain _]
  · unfold scanText
    rw [hdata, hmain _]
  · unfold scanText
    rw [hdata, hmain _]

theorem c4_raw_text_escape_witness :
    ((∀ c ∈ ("hello world").data, c ≠ '\n') ∧
     (∀ w ∈ trigWords, occursB w ("hello world").data = false) ∧
     (∀ c, (pyStrip ("hello world").data).getLast? = some c
        → isPunctC c = false)) ∧
    (scanText { clip := "", ai := fun q => q } []
        ("okay raw text " ++ "hello world" ++ " okay done")).cleaned
      = cleanupL (pyStrip ("hello world").data) :=
  ⟨⟨by decide, by decide, by
      intro c hc
      have h2 : (pyStrip ("hello world").data).getLast? = some 'd' := by
        decide
      rw [h2] at hc
      injection hc with h3
      rw [← h3]
      decide⟩,
    (c4_raw_text_escape { clip := "", ai := fun q => q } "hello world"
      (by decide) (by decide) (by
        intro c hc
        have h2 : (pyStrip ("hello world").data).getLast? = some 'd' := by
          decide
        rw [h2] at hc
        injection hc with h3
        rw [← h3]
        decide)).1⟩

end WL


